import Mathlib

/-!
Verification of the Bayesian Context Trees (BCT) implementation:
a shallow embedding of `tree_class.py` and `bct_main_with_log.py`.

Python dictionaries are modelled as association lists with first-match
lookup (`dlookup`), Python sets as lists with set semantics (`setUpdate`,
`setRemove`), Python `assert` failures and
`KeyError`s as `Option.none`, and float log-space arithmetic as exact
real arithmetic over `ℝ`.
-/

namespace BCT

variable {σ : Type} [DecidableEq σ]

/-- First-match lookup in an association list (Python `d[k]` / `k in d`). -/
def dlookup {α β : Type} [DecidableEq α] : List (α × β) → α → Option β
  | [], _ => none
  | e :: es, k => if e.1 = k then some e.2 else dlookup es k

/-- Python `d[k] = v`: insert, overwriting any previous binding of `k`. -/
def dinsert {α β : Type} [DecidableEq α] (d : List (α × β)) (k : α) (v : β) :
    List (α × β) :=
  (k, v) :: d.filter (fun e => decide (e.1 ≠ k))

/-- Python `d.pop(k)`: remove the binding of `k`. -/
def dremove {α β : Type} [DecidableEq α] (d : List (α × β)) (k : α) :
    List (α × β) :=
  d.filter (fun e => decide (e.1 ≠ k))

theorem dlookup_dinsert_self {α β : Type} [DecidableEq α]
    (d : List (α × β)) (k : α) (v : β) : dlookup (dinsert d k v) k = some v := by
  simp [dlookup, dinsert]

theorem dlookup_filter {α β : Type} [DecidableEq α]
    (d : List (α × β)) (p : α × β → Bool) (k : α)
    (h : ∀ v : β, p (k, v) = true) :
    dlookup (d.filter p) k = dlookup d k := by
  induction d with
  | nil => rfl
  | cons e es ih =>
    by_cases he : e.1 = k
    · have : p e = true := by
        have := h e.2
        rwa [show (k, e.2) = e by rw [← he]] at this
      simp [List.filter, this, dlookup, he, ih]
    · by_cases hp : p e = true
      · simp [List.filter, hp, dlookup, he, ih]
      · simp [List.filter, Bool.of_not_eq_true hp, dlookup, he, ih]

theorem dlookup_dinsert_ne {α β : Type} [DecidableEq α]
    (d : List (α × β)) (k k' : α) (v : β) (h : k' ≠ k) :
    dlookup (dinsert d k v) k' = dlookup d k' := by
  have : dlookup (dinsert d k v) k' =
      dlookup (d.filter (fun e => decide (e.1 ≠ k))) k' := by
    simp [dinsert, dlookup, Ne.symm h]
  rw [this, dlookup_filter]
  intro v'
  simp [h]

theorem dlookup_dremove_self {α β : Type} [DecidableEq α]
    (d : List (α × β)) (k : α) : dlookup (dremove d k) k = none := by
  induction d with
  | nil => rfl
  | cons e es ih =>
    by_cases he : e.1 = k
    · simp [dremove, List.filter, he, ih, dremove] at ih ⊢
      exact ih
    · simpa [dremove, List.filter, he, dlookup] using ih

theorem dlookup_dremove_ne {α β : Type} [DecidableEq α]
    (d : List (α × β)) (k k' : α) (h : k' ≠ k) :
    dlookup (dremove d k) k' = dlookup d k' := by
  rw [dremove, dlookup_filter]
  intro v
  simp [h]

theorem dremove_sublist {α β : Type} [DecidableEq α]
    (d : List (α × β)) (k : α) : (dremove d k).Sublist d :=
  List.filter_sublist d

theorem dlookup_mem {α β : Type} [DecidableEq α]
    {d : List (α × β)} {k : α} {v : β} (h : dlookup d k = some v) : (k, v) ∈ d := by
  induction d with
  | nil => simp [dlookup] at h
  | cons e es ih =>
    by_cases he : e.1 = k
    · simp only [dlookup, if_pos he] at h
      have hv : e.2 = v := Option.some_inj.mp h
      have hkv : e = (k, v) := by
        obtain ⟨e1, e2⟩ := e
        simp only at he hv
        rw [he, hv]
      rw [hkv]
      exact List.mem_cons_self _ _
    · simp only [dlookup, if_neg he] at h
      exact List.mem_cons_of_mem _ (ih h)

theorem dlookup_isSome_of_mem {α β : Type} [DecidableEq α]
    {d : List (α × β)} {e : α × β} (h : e ∈ d) : (dlookup d e.1).isSome := by
  induction d with
  | nil => simp at h
  | cons f fs ih =>
    rcases List.mem_cons.mp h with rfl | h
    · simp [dlookup]
    · by_cases hf : f.1 = e.1
      · simp [dlookup, hf]
      · simp only [dlookup, if_neg hf]
        exact ih h

theorem dlookup_sublist {α β : Type} [DecidableEq α]
    {d d' : List (α × β)} (hs : d'.Sublist d) (k : α) {v : β}
    (h : dlookup d' k = some v) : (dlookup d k).isSome := by
  have : (k, v) ∈ d := hs.mem (dlookup_mem h)
  simpa using dlookup_isSome_of_mem this

/-- Python `set.discard x`: remove an element (no-op when absent). -/
def setRemove {α : Type} [DecidableEq α] (l : List α) (x : α) : List α :=
  l.filter (fun y => decide (y ≠ x))

/-- Python `set.update xs`: add the elements of `xs` that are not present. -/
def setUpdate {α : Type} [DecidableEq α] (l xs : List α) : List α :=
  l ++ xs.filter (fun x => decide (x ∉ l))

theorem mem_setRemove {α : Type} [DecidableEq α] {l : List α} {x v : α} :
    v ∈ setRemove l x ↔ v ≠ x ∧ v ∈ l := by
  simp [setRemove, and_comm]

theorem setRemove_eq_of_not_mem {α : Type} [DecidableEq α] {l : List α} {x : α}
    (h : x ∉ l) : setRemove l x = l := by
  apply List.filter_eq_self.mpr
  intro y hy
  simp only [decide_eq_true_eq]
  rintro rfl
  exact h hy

theorem mem_setUpdate {α : Type} [DecidableEq α] {l xs : List α} {v : α} :
    v ∈ setUpdate l xs ↔ v ∈ l ∨ v ∈ xs := by
  simp only [setUpdate, List.mem_append, List.mem_filter, decide_eq_true_eq]
  constructor
  · rintro (h | ⟨h, -⟩)
    · exact Or.inl h
    · exact Or.inr h
  · rintro (h | h)
    · exact Or.inl h
    · by_cases hl : v ∈ l
      · exact Or.inl hl
      · exact Or.inr ⟨h, hl⟩

theorem mem_setUpdate_left {α : Type} [DecidableEq α] {l xs : List α} {v : α}
    (h : v ∈ l) : v ∈ setUpdate l xs := mem_setUpdate.mpr (Or.inl h)

theorem mem_setUpdate_right {α : Type} [DecidableEq α] {l xs : List α} {v : α}
    (h : v ∈ xs) : v ∈ setUpdate l xs := mem_setUpdate.mpr (Or.inr h)

/-- The context-tree object from `tree_class.py`: an alphabet `s`, a set of
node strings (most recent symbol first), and a dict from internal nodes to
their ordered list of children. -/
structure Tree (σ : Type) where
  s : List σ
  nodes : List (List σ)
  edges : List (List σ × List (List σ))

/-- `Tree.__init__`: fresh tree holding only the root. -/
def Tree.init (s : List σ) : Tree σ := ⟨s, [[]], []⟩

/-- `Tree.add_node`: asserts the parent (`node[1:]`) is present, then inserts
all `m` siblings `b + parent` into `nodes` and records them under the parent
in `edges`.  The failed `assert` is modelled as `none`. -/
def Tree.add_node (t : Tree σ) (node : List σ) : Option (Tree σ) :=
  let parent := node.tail
  if parent ∈ t.nodes then
    let siblings := t.s.map (fun b => b :: parent)
    some { t with nodes := setUpdate t.nodes siblings,
                  edges := dinsert t.edges parent siblings }
  else none

/-- Recursion kernel of `Tree.prune_at_node`; the Python recursion is on a
shrinking dictionary and is given an explicit fuel bound here. -/
def Tree.pruneAux : Nat → Tree σ → List σ → Tree σ
  | 0, t, _ => t
  | fuel + 1, t, node =>
    match dlookup t.edges node with
    | none => t
    | some children =>
      let t' := children.foldl (fun acc child =>
          match dlookup acc.edges child with
          | none => { acc with nodes := setRemove acc.nodes child }
          | some _ =>
            let acc' := Tree.pruneAux fuel acc child
            { acc' with nodes := setRemove acc'.nodes child }) t
      { t' with edges := dremove t'.edges node }

/-- `Tree.prune_at_node`: if `node` is not a key of `edges` this is a no-op;
otherwise every descendant is removed from `nodes` (post-order), every
descendant entry and `node`'s own entry are removed from `edges`, and `node`
itself stays in `nodes` as a leaf.  `edges.length + 1` over-approximates the
recursion depth of the Python implementation. -/
def Tree.prune_at_node (t : Tree σ) (node : List σ) : Tree σ :=
  Tree.pruneAux (t.edges.length + 1) t node

/-- Helper naming the anonymous loop body of `Tree.pruneAux` for reasoning. -/
def pruneFoldStep (fuel : Nat) : Tree σ → List σ → Tree σ := fun acc child =>
  match dlookup acc.edges child with
  | none => { acc with nodes := setRemove acc.nodes child }
  | some _ =>
    let acc' := Tree.pruneAux fuel acc child
    { acc' with nodes := setRemove acc'.nodes child }

theorem pruneAux_succ (fuel : Nat) (t : Tree σ) (node : List σ) :
    Tree.pruneAux (fuel + 1) t node =
      match dlookup t.edges node with
      | none => t
      | some children =>
        let t' := children.foldl (pruneFoldStep fuel) t
        { t' with edges := dremove t'.edges node } := rfl

/-- All stored child lists are the canonical sibling lists. -/
def Canon (t : Tree σ) : Prop := ∀ e ∈ t.edges, e.2 = t.s.map (· :: e.1)

/-- Every strict descendant of `node` that is present (as a node or as an
edge key) starts with an alphabet symbol and has its parent present as an
edge key (or is a direct child of `node`). -/
def Below (t : Tree σ) (node : List σ) : Prop :=
  ∀ v, node <:+ v → v ≠ node → (v ∈ t.nodes ∨ dlookup t.edges v ≠ none) →
    (∃ b ∈ t.s, b :: v.tail = v) ∧ (v.tail = node ∨ dlookup t.edges v.tail ≠ none)

/-- Inductive strengthening of the `Tree` invariant: the root is present,
all edge values are canonical sibling lists over nodes, and every non-root
node starts with an alphabet symbol and has its parent recorded in `edges`
with the canonical sibling list. -/
def StrongInv (t : Tree σ) : Prop :=
  [] ∈ t.nodes ∧
  (∀ e ∈ t.edges, e.2 = t.s.map (· :: e.1) ∧ e.1 ∈ t.nodes ∧ ∀ c ∈ e.2, c ∈ t.nodes) ∧
  (∀ v ∈ t.nodes, v ≠ [] →
    (∃ b ∈ t.s, b :: v.tail = v) ∧
    dlookup t.edges v.tail = some (t.s.map (· :: v.tail)))

theorem StrongInv.canon {t : Tree σ} (h : StrongInv t) : Canon t :=
  fun e he => (h.2.1 e he).1

theorem StrongInv.below {t : Tree σ} (h : StrongInv t) (node : List σ) :
    Below t node := by
  intro v hsfx hvnode hv
  have hvn : v ∈ t.nodes := by
    rcases hv with hv | hv
    · exact hv
    · rcases Option.ne_none_iff_exists'.mp hv with ⟨cs, hcs⟩
      exact (h.2.1 _ (dlookup_mem hcs)).2.1
  have hne : v ≠ [] := by
    rintro rfl
    exact hvnode (List.suffix_nil.mp hsfx).symm
  obtain ⟨hb, hl⟩ := h.2.2 v hvn hne
  exact ⟨hb, Or.inr (by rw [hl]; exact Option.noConfusion)⟩

theorem suffix_tail_of_ne {p v : List σ} (h : p <:+ v) (hne : p ≠ v) :
    p <:+ v.tail := by
  obtain ⟨w, hw⟩ := h
  cases w with
  | nil => exact absurd (by simpa using hw) hne
  | cons b w' =>
    subst hw
    exact ⟨w', rfl⟩

theorem suffix_eq_of_length {p q v : List σ} (hp : p <:+ v) (hq : q <:+ v)
    (hl : p.length = q.length) : p = q := by
  rcases List.suffix_or_suffix_of_suffix hp hq with h | h
  · exact h.eq_of_length hl
  · exact (h.eq_of_length hl.symm).symm

theorem ne_of_suffix_lt {p v : List σ} (h : p.length < v.length) : v ≠ p := by
  intro hv
  subst hv
  exact lt_irrefl _ h

theorem countP_lt_of_mem {α : Type} (l : List α) (p q : α → Bool)
    (hpq : ∀ x ∈ l, p x = true → q x = true) (x : α) (hx : x ∈ l)
    (hqx : q x = true) (hpx : p x = false) : l.countP p < l.countP q := by
  induction l with
  | nil => simp at hx
  | cons a l ih =>
    rw [List.countP_cons, List.countP_cons]
    rcases List.mem_cons.mp hx with rfl | hx
    · rw [hpx, hqx]
      have h1 : (if (false = true) then 1 else 0) = 0 := rfl
      have h2 : (if (true = true) then 1 else 0) = 1 := rfl
      rw [h1, h2]
      have : l.countP p ≤ l.countP q :=
        List.countP_mono_left (fun y hy => hpq y (List.mem_cons_of_mem _ hy))
      omega
    · have hle : (if p a = true then 1 else 0) ≤ (if q a = true then 1 else 0) := by
        by_cases hpa : p a = true
        · simp [hpa, hpq a (List.mem_cons_self _ _) hpa]
        · simp [Bool.of_not_eq_true hpa]
      have h2 := ih (fun y hy h => hpq y (List.mem_cons_of_mem _ hy) h) hx
      omega

/-- Every edge key strictly between `node` and a present descendant is
itself present as an edge key. -/
theorem below_chain {t : Tree σ} {node : List σ} (hb : Below t node) :
    ∀ v, node <:+ v → (v ∈ t.nodes ∨ dlookup t.edges v ≠ none) →
      ∀ p, node <:+ p → p <:+ v → p ≠ node → p ≠ v →
        dlookup t.edges p ≠ none := by
  have main : ∀ n, ∀ v : List σ, v.length ≤ n →
      node <:+ v → (v ∈ t.nodes ∨ dlookup t.edges v ≠ none) →
      ∀ p, node <:+ p → p <:+ v → p ≠ node → p ≠ v →
        dlookup t.edges p ≠ none := by
    intro n
    induction n with
    | zero =>
      intro v hl _ _ p _ hpv _ hpvne
      have : v = [] := List.length_eq_zero.mp (Nat.le_zero.mp hl)
      subst this
      exact absurd (List.suffix_nil.mp hpv) hpvne
    | succ n ih =>
      intro v hl hnv hv p hnp hpv hpnode hpvne
      have hvnode : v ≠ node := by
        intro h
        subst h
        exact hpvne (hpv.eq_of_length (Nat.le_antisymm hpv.length_le hnp.length_le))
      obtain ⟨_, htail⟩ := hb v hnv hvnode hv
      have hptail : p <:+ v.tail := suffix_tail_of_ne hpv hpvne
      rcases htail with htail | htail
      · rw [htail] at hptail
        exact absurd (hptail.eq_of_length
          (Nat.le_antisymm hptail.length_le hnp.length_le)) hpnode
      · by_cases hpt : p = v.tail
        · rw [hpt]; exact htail
        · have hvne : v ≠ [] := by
            rintro rfl
            exact hvnode (List.suffix_nil.mp hnv).symm
          have hlt : v.tail.length ≤ n := by
            cases v with
            | nil => exact absurd rfl hvne
            | cons a l => simpa using hl
          exact ih v.tail hlt (hnp.trans hptail) (Or.inr htail)
            p hnp hptail hpnode hpt
  exact fun v => main v.length v le_rfl

/-- Every present strict descendant of `node` lies under one of `node`'s
canonical children. -/
theorem child_suffix_exists {t : Tree σ} {node : List σ} (hb : Below t node) :
    ∀ v, node <:+ v → v ≠ node → (v ∈ t.nodes ∨ dlookup t.edges v ≠ none) →
      ∃ b ∈ t.s, (b :: node) <:+ v := by
  have main : ∀ n, ∀ v : List σ, v.length ≤ n →
      node <:+ v → v ≠ node → (v ∈ t.nodes ∨ dlookup t.edges v ≠ none) →
      ∃ b ∈ t.s, (b :: node) <:+ v := by
    intro n
    induction n with
    | zero =>
      intro v hl hnv hvnode _
      have : v = [] := List.length_eq_zero.mp (Nat.le_zero.mp hl)
      subst this
      exact absurd (List.suffix_nil.mp hnv).symm hvnode
    | succ n ih =>
      intro v hl hnv hvnode hv
      obtain ⟨⟨b, hbs, hbv⟩, htail⟩ := hb v hnv hvnode hv
      by_cases htn : v.tail = node
      · exact ⟨b, hbs, by rw [htn] at hbv; exact ⟨[], by simpa using hbv⟩⟩
      · have htail' : dlookup t.edges v.tail ≠ none := by
          rcases htail with htail | htail
          · exact absurd htail htn
          · exact htail
        have hvne : v ≠ [] := by
          rintro rfl
          exact hvnode (List.suffix_nil.mp hnv).symm
        have hlt : v.tail.length ≤ n := by
          cases v with
          | nil => exact absurd rfl hvne
          | cons a l => simpa using hl
        have hnt : node <:+ v.tail := suffix_tail_of_ne hnv (Ne.symm hvnode)
        obtain ⟨b', hb's, hsfx⟩ := ih v.tail hlt hnt htn (Or.inr htail')
        exact ⟨b', hb's, hsfx.trans (List.tail_suffix v)⟩
  exact fun v => main v.length v le_rfl

theorem child_suffix_ne {b : σ} {node v : List σ} (h : (b :: node) <:+ v) :
    v ≠ node := by
  intro hv
  subst hv
  have := h.length_le
  simp only [List.length_cons] at this
  omega

theorem child_eq_of_suffix {b b' : σ} {node v : List σ}
    (h : (b :: node) <:+ v) (h' : (b' :: node) <:+ v) : b :: node = b' :: node :=
  suffix_eq_of_length h h' (by simp)

theorem pruneAux_sublist : ∀ (fuel : Nat) (t : Tree σ) (node : List σ),
    (Tree.pruneAux fuel t node).edges.Sublist t.edges ∧
    (Tree.pruneAux fuel t node).s = t.s := by
  intro fuel
  induction fuel with
  | zero => exact fun t node => ⟨List.Sublist.refl _, rfl⟩
  | succ fuel ih =>
    intro t node
    rw [pruneAux_succ]
    cases hl : dlookup t.edges node with
    | none => exact ⟨List.Sublist.refl _, rfl⟩
    | some children =>
      have hfold : ∀ (cs : List (List σ)) (acc : Tree σ),
          (cs.foldl (pruneFoldStep fuel) acc).edges.Sublist acc.edges ∧
          (cs.foldl (pruneFoldStep fuel) acc).s = acc.s := by
        intro cs
        induction cs with
        | nil => exact fun acc => ⟨List.Sublist.refl _, rfl⟩
        | cons c cs ihc =>
          intro acc
          rw [List.foldl_cons]
          have hstep : (pruneFoldStep fuel acc c).edges.Sublist acc.edges ∧
              (pruneFoldStep fuel acc c).s = acc.s := by
            unfold pruneFoldStep
            cases hc : dlookup acc.edges c with
            | none => exact ⟨List.Sublist.refl _, rfl⟩
            | some val => exact ⟨(ih acc c).1, (ih acc c).2⟩
          obtain ⟨h1, h2⟩ := ihc (pruneFoldStep fuel acc c)
          exact ⟨h1.trans hstep.1, h2.trans hstep.2⟩
      obtain ⟨h1, h2⟩ := hfold children t
      exact ⟨(dremove_sublist _ _).trans h1, h2⟩

/-- Invariant of the child-processing loop inside `Tree.pruneAux`: after
processing the children in `C`, exactly the nodes and edge keys lying under
some member of `C` have been removed. -/
theorem pruneFold_inv (fuel : Nat) (t : Tree σ) (node : List σ)
    (hcanon : Canon t) (hbelow : Below t node)
    (ih : ∀ (t' : Tree σ) (node' : List σ), Canon t' → Below t' node' →
      t'.edges.countP (fun e => decide (node' <:+ e.1)) < fuel →
      dlookup t'.edges node' ≠ none →
      (Tree.pruneAux fuel t' node').s = t'.s ∧
      (∀ v, v ∈ (Tree.pruneAux fuel t' node').nodes ↔
        v ∈ t'.nodes ∧ ¬(node' <:+ v ∧ v ≠ node')) ∧
      (∀ u, dlookup (Tree.pruneAux fuel t' node').edges u =
        if node' <:+ u then none else dlookup t'.edges u))
    (hcount : t.edges.countP (fun e => decide (node <:+ e.1)) ≤ fuel)
    (hkey : dlookup t.edges node ≠ none) :
    ∀ (cs C : List (List σ)) (acc : Tree σ),
      (∀ c ∈ cs, ∃ b ∈ t.s, c = b :: node) →
      (∀ c ∈ C, ∃ b ∈ t.s, c = b :: node) →
      acc.s = t.s →
      acc.edges.Sublist t.edges →
      (∀ v, v ∈ acc.nodes ↔ v ∈ t.nodes ∧ ∀ c ∈ C, ¬ c <:+ v) →
      (∀ u, dlookup acc.edges u =
        if ∃ c ∈ C, c <:+ u then none else dlookup t.edges u) →
      ((cs.foldl (pruneFoldStep fuel) acc).s = t.s ∧
       (cs.foldl (pruneFoldStep fuel) acc).edges.Sublist t.edges ∧
       (∀ v, v ∈ (cs.foldl (pruneFoldStep fuel) acc).nodes ↔
         v ∈ t.nodes ∧ ∀ c ∈ C ++ cs, ¬ c <:+ v) ∧
       (∀ u, dlookup (cs.foldl (pruneFoldStep fuel) acc).edges u =
         if ∃ c ∈ C ++ cs, c <:+ u then none else dlookup t.edges u)) := by
  intro cs
  induction cs with
  | nil =>
    intro C acc _ hC hs hsub hnodes hedges
    simp only [List.foldl_nil, List.append_nil]
    exact ⟨hs, hsub, hnodes, hedges⟩
  | cons c cs ihc =>
    intro C acc hcs hC hs hsub hnodes hedges
    obtain ⟨b, hbs, hcb⟩ := hcs c (List.mem_cons_self _ _)
    have hnc : node <:+ c := by rw [hcb]; exact List.suffix_cons b node
    have hcnode : c ≠ node := by rw [hcb]; exact child_suffix_ne List.suffix_rfl
    rw [List.foldl_cons]
    by_cases hCc : ∃ c' ∈ C, c' <:+ c
    · -- `c` was already processed (duplicate): the step's erase is a no-op
      obtain ⟨c', hc'C, hc'c⟩ := hCc
      have hc'eq : c' = c := by
        obtain ⟨b', hb's, hcb'⟩ := hC c' hc'C
        rw [hcb', hcb] at hc'c ⊢
        exact child_eq_of_suffix hc'c List.suffix_rfl
      have hcC : c ∈ C := hc'eq ▸ hc'C
      have hlc : dlookup acc.edges c = none := by
        rw [hedges c, if_pos ⟨c, hcC, List.suffix_rfl⟩]
      have hcnotin : c ∉ acc.nodes := by
        rw [hnodes]
        rintro ⟨-, hall⟩
        exact hall c hcC List.suffix_rfl
      have hstep2 : pruneFoldStep fuel acc c = acc := by
        unfold pruneFoldStep
        rw [hlc]
        have he : setRemove acc.nodes c = acc.nodes := setRemove_eq_of_not_mem hcnotin
        rw [he]
      rw [hstep2]
      have happend : ∀ x, x ∈ C ++ [c] ↔ x ∈ C := by
        intro x
        constructor
        · intro hx
          rcases List.mem_append.mp hx with hx | hx
          · exact hx
          · rw [List.mem_singleton.mp hx]; exact hcC
        · exact fun hx => List.mem_append_left _ hx
      have hmain := ihc (C ++ [c]) acc
        (fun x hx => hcs x (List.mem_cons_of_mem _ hx))
        (fun x hx => hC x ((happend x).mp hx))
        hs hsub
        (fun v => by
          rw [hnodes v]
          constructor
          · rintro ⟨hvt, hall⟩
            exact ⟨hvt, fun x hx => hall x ((happend x).mp hx)⟩
          · rintro ⟨hvt, hall⟩
            exact ⟨hvt, fun x hx => hall x (List.mem_append_left _ hx)⟩)
        (fun u => by
          rw [hedges u]
          by_cases hCu : ∃ x ∈ C, x <:+ u
          · obtain ⟨x, hx, hxu⟩ := hCu
            rw [if_pos ⟨x, hx, hxu⟩, if_pos ⟨x, List.mem_append_left _ hx, hxu⟩]
          · rw [if_neg hCu, if_neg]
            rintro ⟨x, hx, hxu⟩
            exact hCu ⟨x, (happend x).mp hx, hxu⟩)
      rw [List.append_assoc, List.singleton_append] at hmain
      exact hmain
    · have hacc_t : dlookup acc.edges c = dlookup t.edges c := by
        rw [hedges c, if_neg hCc]
      have hnoC : ∀ u, c <:+ u → ¬ ∃ c' ∈ C, c' <:+ u := by
        rintro u hcu ⟨c', hc'C, hc'u⟩
        apply hCc
        refine ⟨c', hc'C, ?_⟩
        obtain ⟨b', hb's, hcb'⟩ := hC c' hc'C
        have hceq : c' = c := by
          rw [hcb'] at hc'u
          rw [hcb] at hcu
          rw [hcb', hcb]
          exact child_eq_of_suffix hc'u hcu
        rw [hceq]
      cases hlc : dlookup acc.edges c with
      | none =>
        have htc : dlookup t.edges c = none := by rw [← hacc_t, hlc]
        have hnone_below : ∀ v, c <:+ v → v ≠ c →
            (v ∈ t.nodes ∨ dlookup t.edges v ≠ none) → False := by
          intro v hcv hvc hin
          exact below_chain hbelow v (hnc.trans hcv) hin c hnc hcv hcnode (Ne.symm hvc) htc
        have hstep : pruneFoldStep fuel acc c =
            { acc with nodes := setRemove acc.nodes c } := by
          unfold pruneFoldStep
          rw [hlc]
        rw [hstep]
        have hnodes' : ∀ v, v ∈ ({ acc with nodes := setRemove acc.nodes c } : Tree σ).nodes ↔
            v ∈ t.nodes ∧ ∀ x ∈ C ++ [c], ¬ x <:+ v := by
          intro v
          show v ∈ setRemove acc.nodes c ↔ _
          rw [mem_setRemove, hnodes v]
          constructor
          · rintro ⟨hvc, hvt, hall⟩
            refine ⟨hvt, fun x hx => ?_⟩
            rcases List.mem_append.mp hx with hx | hx
            · exact hall x hx
            · rw [List.mem_singleton.mp hx]
              intro hcv
              exact hnone_below v hcv hvc (Or.inl hvt)
          · rintro ⟨hvt, hall⟩
            have hcv : ¬ c <:+ v := hall c (List.mem_append_right _ (List.mem_singleton_self c))
            refine ⟨?_, hvt, fun x hx => hall x (List.mem_append_left _ hx)⟩
            intro h
            exact hcv (by rw [h])
        have hedges' : ∀ u, dlookup ({ acc with nodes := setRemove acc.nodes c } : Tree σ).edges u =
            if ∃ x ∈ C ++ [c], x <:+ u then none else dlookup t.edges u := by
          intro u
          show dlookup acc.edges u = _
          rw [hedges u]
          by_cases hCu : ∃ x ∈ C, x <:+ u
          · obtain ⟨x, hx, hxu⟩ := hCu
            rw [if_pos ⟨x, hx, hxu⟩, if_pos ⟨x, List.mem_append_left _ hx, hxu⟩]
          · rw [if_neg hCu]
            by_cases hcu : c <:+ u
            · rw [if_pos ⟨c, List.mem_append_right _ (List.mem_singleton_self c), hcu⟩]
              by_cases huc : u = c
              · rw [huc, htc]
              · cases hu : dlookup t.edges u with
                | none => rfl
                | some w =>
                  exact ((hnone_below u hcu huc
                    (Or.inr (by rw [hu]; exact Option.noConfusion)))).elim
            · rw [if_neg]
              rintro ⟨x, hxm, hxu⟩
              rcases List.mem_append.mp hxm with hxm | hxm
              · exact hCu ⟨x, hxm, hxu⟩
              · rw [List.mem_singleton.mp hxm] at hxu
                exact hcu hxu
        have hmain := ihc (C ++ [c]) { acc with nodes := setRemove acc.nodes c }
          (fun x hx => hcs x (List.mem_cons_of_mem _ hx))
          (fun x hx => by
            rcases List.mem_append.mp hx with hx | hx
            · exact hC x hx
            · rw [List.mem_singleton.mp hx]; exact ⟨b, hbs, hcb⟩)
          hs hsub hnodes' hedges'
        rw [List.append_assoc, List.singleton_append] at hmain
        exact hmain
      | some val =>
        have htc : dlookup t.edges c ≠ none := by
          rw [← hacc_t, hlc]
          exact Option.noConfusion
        have hcanon_acc : Canon acc := by
          intro e he
          have h := hcanon e (hsub.subset he)
          rw [hs]
          exact h
        have hbelow_acc : Below acc c := by
          intro v hcv hvc hin
          have hin_t : v ∈ t.nodes ∨ dlookup t.edges v ≠ none := by
            rcases hin with hin | hin
            · exact Or.inl ((hnodes v).mp hin).1
            · right
              rw [hedges v] at hin
              by_cases hCv : ∃ x ∈ C, x <:+ v
              · rw [if_pos hCv] at hin
                exact absurd rfl hin
              · rwa [if_neg hCv] at hin
          have hnv : node <:+ v := hnc.trans hcv
          have hvnode : v ≠ node := by
            rw [hcb] at hcv
            exact child_suffix_ne hcv
          obtain ⟨hhead, htail⟩ := hbelow v hnv hvnode hin_t
          constructor
          · rw [hs]
            exact hhead
          · by_cases hvt : v.tail = c
            · exact Or.inl hvt
            · right
              have hctail : c <:+ v.tail := suffix_tail_of_ne hcv (Ne.symm hvc)
              have hvtnode : v.tail ≠ node := by
                rw [hcb] at hctail
                exact child_suffix_ne hctail
              have htl : dlookup t.edges v.tail ≠ none := by
                rcases htail with h | h
                · exact absurd h hvtnode
                · exact h
              rw [hedges v.tail, if_neg (hnoC v.tail hctail)]
              exact htl
        have hcount_acc : acc.edges.countP (fun e => decide (c <:+ e.1)) < fuel := by
          have h1 : acc.edges.countP (fun e => decide (c <:+ e.1)) ≤
              t.edges.countP (fun e => decide (c <:+ e.1)) := hsub.countP_le _
          have h2 : t.edges.countP (fun e => decide (c <:+ e.1)) <
              t.edges.countP (fun e => decide (node <:+ e.1)) := by
            obtain ⟨w, hw⟩ := Option.ne_none_iff_exists'.mp hkey
            refine countP_lt_of_mem _ _ _ ?_ (node, w) (dlookup_mem hw) ?_ ?_
            · intro x hx h
              simp only [decide_eq_true_eq] at h ⊢
              exact hnc.trans h
            · simp only [decide_eq_true_eq]
              exact List.suffix_rfl
            · simp only [decide_eq_false_iff_not]
              intro h
              rw [hcb] at h
              have hle := h.length_le
              simp only [List.length_cons] at hle
              omega
          omega
        have hres := ih acc c hcanon_acc hbelow_acc hcount_acc
          (by rw [hlc]; exact Option.noConfusion)
        obtain ⟨hres_s, hres_nodes, hres_edges⟩ := hres
        have hstep : pruneFoldStep fuel acc c =
            { Tree.pruneAux fuel acc c with
              nodes := setRemove (Tree.pruneAux fuel acc c).nodes c } := by
          unfold pruneFoldStep
          rw [hlc]
        rw [hstep]
        have hnodes' : ∀ v,
            v ∈ ({ Tree.pruneAux fuel acc c with
              nodes := setRemove (Tree.pruneAux fuel acc c).nodes c } : Tree σ).nodes ↔
            v ∈ t.nodes ∧ ∀ x ∈ C ++ [c], ¬ x <:+ v := by
          intro v
          show v ∈ setRemove (Tree.pruneAux fuel acc c).nodes c ↔ _
          rw [mem_setRemove, hres_nodes v, hnodes v]
          constructor
          · rintro ⟨hvc, ⟨hvt, hall⟩, hncv⟩
            refine ⟨hvt, fun x hx => ?_⟩
            rcases List.mem_append.mp hx with hx | hx
            · exact hall x hx
            · rw [List.mem_singleton.mp hx]
              intro hcv
              exact hncv ⟨hcv, hvc⟩
          · rintro ⟨hvt, hall⟩
            have hcv : ¬ c <:+ v :=
              hall c (List.mem_append_right _ (List.mem_singleton_self c))
            refine ⟨?_, ⟨hvt, fun x hx => hall x (List.mem_append_left _ hx)⟩, ?_⟩
            · intro h
              exact hcv (by rw [h])
            · rintro ⟨h1, -⟩
              exact hcv h1
        have hedges' : ∀ u,
            dlookup ({ Tree.pruneAux fuel acc c with
              nodes := setRemove (Tree.pruneAux fuel acc c).nodes c } : Tree σ).edges u =
            if ∃ x ∈ C ++ [c], x <:+ u then none else dlookup t.edges u := by
          intro u
          show dlookup (Tree.pruneAux fuel acc c).edges u = _
          rw [hres_edges u]
          by_cases hcu : c <:+ u
          · rw [if_pos hcu,
              if_pos ⟨c, List.mem_append_right _ (List.mem_singleton_self c), hcu⟩]
          · rw [if_neg hcu, hedges u]
            by_cases hCu : ∃ x ∈ C, x <:+ u
            · obtain ⟨x, hx, hxu⟩ := hCu
              rw [if_pos ⟨x, hx, hxu⟩, if_pos ⟨x, List.mem_append_left _ hx, hxu⟩]
            · rw [if_neg hCu, if_neg]
              rintro ⟨x, hxm, hxu⟩
              rcases List.mem_append.mp hxm with hxm | hxm
              · exact hCu ⟨x, hxm, hxu⟩
              · rw [List.mem_singleton.mp hxm] at hxu
                exact hcu hxu
        have hsub' : ({ Tree.pruneAux fuel acc c with
            nodes := setRemove (Tree.pruneAux fuel acc c).nodes c } : Tree σ).edges.Sublist
            t.edges := ((pruneAux_sublist fuel acc c).1).trans hsub
        have hs' : ({ Tree.pruneAux fuel acc c with
            nodes := setRemove (Tree.pruneAux fuel acc c).nodes c } : Tree σ).s = t.s := by
          show (Tree.pruneAux fuel acc c).s = t.s
          rw [hres_s, hs]
        have hmain := ihc (C ++ [c])
          { Tree.pruneAux fuel acc c with
            nodes := setRemove (Tree.pruneAux fuel acc c).nodes c }
          (fun x hx => hcs x (List.mem_cons_of_mem _ hx))
          (fun x hx => by
            rcases List.mem_append.mp hx with hx | hx
            · exact hC x hx
            · rw [List.mem_singleton.mp hx]; exact ⟨b, hbs, hcb⟩)
          hs' hsub' hnodes' hedges'
        rw [List.append_assoc, List.singleton_append] at hmain
        exact hmain

/-- Full characterization of `Tree.pruneAux` with sufficient fuel: pruning at
an edge key removes exactly the strict descendants from `nodes` and exactly
the keys at or below `node` from `edges`. -/
theorem pruneAux_spec : ∀ (fuel : Nat) (t : Tree σ) (node : List σ),
    Canon t → Below t node →
    t.edges.countP (fun e => decide (node <:+ e.1)) < fuel →
    dlookup t.edges node ≠ none →
    (Tree.pruneAux fuel t node).s = t.s ∧
    (∀ v, v ∈ (Tree.pruneAux fuel t node).nodes ↔
      v ∈ t.nodes ∧ ¬(node <:+ v ∧ v ≠ node)) ∧
    (∀ u, dlookup (Tree.pruneAux fuel t node).edges u =
      if node <:+ u then none else dlookup t.edges u) := by
  intro fuel
  induction fuel with
  | zero =>
    intro t node _ _ hcount _
    omega
  | succ fuel ih =>
    intro t node hcanon hbelow hcount hkey
    rw [pruneAux_succ]
    cases hl : dlookup t.edges node with
    | none => exact absurd hl hkey
    | some children =>
      have hchildren : children = t.s.map (· :: node) := hcanon _ (dlookup_mem hl)
      have hcanonical : ∀ c ∈ children, ∃ b ∈ t.s, c = b :: node := by
        intro c hc
        rw [hchildren] at hc
        obtain ⟨b, hb, hb2⟩ := List.mem_map.mp hc
        exact ⟨b, hb, hb2.symm⟩
      have hfold := pruneFold_inv fuel t node hcanon hbelow ih
        (Nat.lt_succ_iff.mp hcount) hkey
        children [] t hcanonical (by simp) rfl (List.Sublist.refl _)
        (by intro v; simp) (by intro u; simp)
      obtain ⟨hfs, hfsub, hfnodes, hfedges⟩ := hfold
      simp only [List.nil_append] at hfnodes hfedges
      refine ⟨hfs, ?_, ?_⟩
      · intro v
        show v ∈ (children.foldl (pruneFoldStep fuel) t).nodes ↔ _
        rw [hfnodes v]
        constructor
        · rintro ⟨hvt, hall⟩
          refine ⟨hvt, ?_⟩
          rintro ⟨hnv, hvnode⟩
          obtain ⟨b, hbs, hbv⟩ := child_suffix_exists hbelow v hnv hvnode (Or.inl hvt)
          exact hall (b :: node)
            (by rw [hchildren]; exact List.mem_map_of_mem _ hbs) hbv
        · rintro ⟨hvt, hnd⟩
          refine ⟨hvt, fun x hx hxv => ?_⟩
          obtain ⟨b, hbs, hbx⟩ := hcanonical x hx
          rw [hbx] at hxv
          exact hnd ⟨(List.suffix_cons b node).trans hxv, child_suffix_ne hxv⟩
      · intro u
        show dlookup (dremove (children.foldl (pruneFoldStep fuel) t).edges node) u = _
        by_cases hun : u = node
        · rw [hun, dlookup_dremove_self, if_pos List.suffix_rfl]
        · rw [dlookup_dremove_ne _ _ _ hun, hfedges u]
          by_cases hnu : node <:+ u
          · rw [if_pos hnu]
            by_cases hhit : ∃ x ∈ children, x <:+ u
            · rw [if_pos hhit]
            · rw [if_neg hhit]
              cases hu : dlookup t.edges u with
              | none => rfl
              | some w =>
                obtain ⟨b, hbs, hbu⟩ := child_suffix_exists hbelow u hnu hun
                  (Or.inr (by rw [hu]; exact Option.noConfusion))
                exact absurd ⟨b :: node,
                  by rw [hchildren]; exact List.mem_map_of_mem _ hbs, hbu⟩ hhit
          · rw [if_neg hnu, if_neg]
            rintro ⟨x, hxm, hxu⟩
            obtain ⟨b, hbs, hbx⟩ := hcanonical x hxm
            rw [hbx] at hxu
            exact hnu ((List.suffix_cons b node).trans hxu)

theorem prune_at_node_noop (t : Tree σ) (node : List σ)
    (h : dlookup t.edges node = none) : t.prune_at_node node = t := by
  unfold Tree.prune_at_node
  rw [pruneAux_succ, h]

/-- Characterization of `Tree.prune_at_node` on invariant-satisfying trees. -/
theorem prune_at_node_spec (t : Tree σ) (node : List σ) (hinv : StrongInv t)
    (hkey : dlookup t.edges node ≠ none) :
    (t.prune_at_node node).s = t.s ∧
    (∀ v, v ∈ (t.prune_at_node node).nodes ↔
      v ∈ t.nodes ∧ ¬(node <:+ v ∧ v ≠ node)) ∧
    (∀ u, dlookup (t.prune_at_node node).edges u =
      if node <:+ u then none else dlookup t.edges u) := by
  apply pruneAux_spec _ _ _ hinv.canon (hinv.below node) _ hkey
  have h1 : t.edges.countP (fun e => decide (node <:+ e.1)) ≤ t.edges.length :=
    List.countP_le_length _
  omega

theorem prune_at_node_edges_sublist (t : Tree σ) (node : List σ) :
    (t.prune_at_node node).edges.Sublist t.edges :=
  (pruneAux_sublist _ t node).1

theorem strongInv_init (s : List σ) : StrongInv (Tree.init s) := by
  refine ⟨List.mem_singleton_self _, ?_, ?_⟩
  · intro e he
    simp [Tree.init] at he
  · intro v hv hne
    exact absurd (List.mem_singleton.mp hv) hne

theorem add_node_strongInv {t t' : Tree σ} {n : List σ} (hinv : StrongInv t)
    (h : t.add_node n = some t') : StrongInv t' := by
  unfold Tree.add_node at h
  by_cases hp : n.tail ∈ t.nodes
  · rw [if_pos hp] at h
    obtain rfl := Option.some_inj.mp h
    refine ⟨mem_setUpdate_left hinv.1, ?_, ?_⟩
    · intro e he
      rcases List.mem_cons.mp he with rfl | he
      · refine ⟨rfl, mem_setUpdate_left hp, ?_⟩
        intro c hc
        exact mem_setUpdate_right hc
      · have he' : e ∈ t.edges := (List.filter_sublist _).subset he
        obtain ⟨h1, h2, h3⟩ := hinv.2.1 e he'
        exact ⟨h1, mem_setUpdate_left h2,
          fun c hc => mem_setUpdate_left (h3 c hc)⟩
    · intro v hv hne
      rcases mem_setUpdate.mp hv with hv | hv
      · obtain ⟨hhead, hlook⟩ := hinv.2.2 v hv hne
        refine ⟨hhead, ?_⟩
        by_cases hvt : v.tail = n.tail
        · rw [hvt]
          exact dlookup_dinsert_self _ _ _
        · rw [dlookup_dinsert_ne _ _ _ _ hvt]
          exact hlook
      · obtain ⟨b, hb, hbv⟩ := List.mem_map.mp hv
        have hvt : v.tail = n.tail := by rw [← hbv]; rfl
        refine ⟨⟨b, hb, by rw [hvt, hbv]⟩, ?_⟩
        rw [hvt]
        exact dlookup_dinsert_self _ _ _
  · rw [if_neg hp] at h
    exact absurd h (by simp)

theorem prune_at_node_strongInv {t : Tree σ} (hinv : StrongInv t)
    (node : List σ) : StrongInv (t.prune_at_node node) := by
  by_cases hkey : dlookup t.edges node = none
  · rw [prune_at_node_noop t node hkey]
    exact hinv
  · obtain ⟨hs, hnodes, hedges⟩ := prune_at_node_spec t node hinv hkey
    refine ⟨?_, ?_, ?_⟩
    · rw [hnodes]
      refine ⟨hinv.1, ?_⟩
      rintro ⟨h1, h2⟩
      exact h2 (List.suffix_nil.mp h1).symm
    · intro e he
      have het : e ∈ t.edges := (prune_at_node_edges_sublist t node).subset he
      obtain ⟨h1, h2, h3⟩ := hinv.2.1 e het
      have hkeymem : ¬ node <:+ e.1 := by
        intro hsfx
        have := dlookup_isSome_of_mem he
        rw [hedges e.1, if_pos hsfx] at this
        simp at this
      refine ⟨by rw [hs]; exact h1, ?_, ?_⟩
      · rw [hnodes]
        exact ⟨h2, fun hdesc => hkeymem hdesc.1⟩
      · intro c hc
        rw [hnodes]
        refine ⟨h3 c hc, ?_⟩
        rintro ⟨hdesc1, hdesc2⟩
        apply hkeymem
        have hct : c.tail = e.1 := by
          rw [h1] at hc
          obtain ⟨b, -, hbc⟩ := List.mem_map.mp hc
          rw [← hbc]
          rfl
        rw [← hct]
        exact suffix_tail_of_ne hdesc1 (Ne.symm hdesc2)
    · intro v hv hne
      obtain ⟨hvt, hdesc⟩ := (hnodes v).mp hv
      obtain ⟨hhead, hlook⟩ := hinv.2.2 v hvt hne
      have hnt : ¬ node <:+ v.tail := by
        intro hsfx
        apply hdesc
        refine ⟨hsfx.trans (List.tail_suffix v), ?_⟩
        intro hveq
        have h1 : node.length ≤ v.tail.length := hsfx.length_le
        have h2 : v.tail.length < v.length := by
          cases v with
          | nil => exact absurd rfl hne
          | cons a l => simp
        have h3 : v.length = node.length := by rw [hveq]
        omega
      refine ⟨by rw [hs]; exact hhead, ?_⟩
      rw [hedges v.tail, if_neg hnt, hs]
      exact hlook

/-- The structural invariant of C5, exactly as the claim states it. -/
def TreeInvC5 (t : Tree σ) : Prop :=
  (∀ e ∈ t.edges, e.2 = t.s.map (· :: e.1) ∧ ∀ c ∈ e.2, c ∈ t.nodes) ∧
  (∀ v ∈ t.nodes, v ≠ [] →
    v.tail ∈ t.nodes ∧ ∀ b ∈ t.s, b :: v.tail ∈ t.nodes) ∧
  [] ∈ t.nodes

theorem strongInv_treeInvC5 {t : Tree σ} (hinv : StrongInv t) : TreeInvC5 t := by
  refine ⟨?_, ?_, hinv.1⟩
  · intro e he
    obtain ⟨h1, -, h3⟩ := hinv.2.1 e he
    exact ⟨h1, h3⟩
  · intro v hv hne
    obtain ⟨-, hlook⟩ := hinv.2.2 v hv hne
    obtain ⟨h1, h2, h3⟩ := hinv.2.1 _ (dlookup_mem hlook)
    refine ⟨h2, ?_⟩
    intro b hb
    exact h3 _ (by rw [h1]; exact List.mem_map_of_mem _ hb)

/-- States of the `Tree` object reachable through its public operations. -/
inductive Reachable (s : List σ) : Tree σ → Prop
  | base : Reachable s (Tree.init s)
  | add_step {t t' : Tree σ} {n : List σ} :
      Reachable s t → t.add_node n = some t' → Reachable s t'
  | prune_step {t : Tree σ} (n : List σ) :
      Reachable s t → Reachable s (t.prune_at_node n)

theorem reachable_strongInv {s : List σ} {t : Tree σ} (h : Reachable s t) :
    StrongInv t := by
  induction h with
  | base => exact strongInv_init s
  | add_step _ hadd ih => exact add_node_strongInv ih hadd
  | prune_step n _ ih => exact prune_at_node_strongInv ih n

/-- C5: the structural invariant — every `edges` key maps to its m canonical
children, all present in `nodes`; every non-root node has its parent and all
siblings present; the root is present — holds for a fresh `Tree` and is
preserved by every (successful) `add_node` and every `prune_at_node`, i.e.
it holds in every reachable state of the object. -/
theorem claim_C5 {s : List σ} {t : Tree σ} (h : Reachable s t) : TreeInvC5 t :=
  strongInv_treeInvC5 (reachable_strongInv h)

theorem claim_C5_witness : TreeInvC5 (Tree.init [true]) :=
  claim_C5 Reachable.base

/-- C6: on an invariant-satisfying tree, `prune_at_node node` is a no-op when
`node` is not an `edges` key; otherwise it removes exactly the strict
descendants of `node` from `nodes` (keeping `node` itself as a leaf) and
exactly the keys at or below `node` from `edges`, touching nothing outside
the subtree. -/
theorem claim_C6 (t : Tree σ) (node : List σ) (hinv : StrongInv t) :
    (dlookup t.edges node = none → t.prune_at_node node = t) ∧
    (dlookup t.edges node ≠ none →
      node ∈ (t.prune_at_node node).nodes ∧
      (∀ v, v ∈ (t.prune_at_node node).nodes ↔
        v ∈ t.nodes ∧ ¬(node <:+ v ∧ v ≠ node)) ∧
      (∀ u, dlookup (t.prune_at_node node).edges u =
        if node <:+ u then none else dlookup t.edges u)) := by
  constructor
  · exact prune_at_node_noop t node
  · intro hkey
    obtain ⟨hs, hnodes, hedges⟩ := prune_at_node_spec t node hinv hkey
    refine ⟨?_, hnodes, hedges⟩
    rw [hnodes]
    obtain ⟨w, hw⟩ := Option.ne_none_iff_exists'.mp hkey
    refine ⟨(hinv.2.1 _ (dlookup_mem hw)).2.1, ?_⟩
    rintro ⟨-, hne⟩
    exact hne rfl

/-- Concrete tree used to witness C6: root with its two children. -/
def treeEx : Tree Bool :=
  ⟨[true, false], [[], [true], [false]], [([], [[true], [false]])]⟩

theorem claim_C6_witness :
    (dlookup treeEx.edges [] = none → treeEx.prune_at_node [] = treeEx) ∧
    (dlookup treeEx.edges [] ≠ none →
      [] ∈ (treeEx.prune_at_node []).nodes ∧
      (∀ v, v ∈ (treeEx.prune_at_node []).nodes ↔
        v ∈ treeEx.nodes ∧ ¬([] <:+ v ∧ v ≠ [])) ∧
      (∀ u, dlookup (treeEx.prune_at_node []).edges u =
        if [] <:+ u then none else dlookup treeEx.edges u)) :=
  claim_C6 treeEx [] (by unfold StrongInv; decide)

/-- Fallible left fold: the Python `for` loop whose body may raise. -/
def optFold {α β : Type} (f : β → α → Option β) : β → List α → Option β
  | b, [] => some b
  | b, a :: l =>
    match f b a with
    | none => none
    | some b' => optFold f b' l

theorem optFold_append {α β : Type} (f : β → α → Option β) (l : List α) (x : α)
    (b : β) :
    optFold f b (l ++ [x]) = (optFold f b l).bind (fun r => f r x) := by
  induction l generalizing b with
  | nil =>
    have h1 : optFold f b ([] ++ [x]) = match f b x with
      | none => none
      | some b' => optFold f b' [] := rfl
    rw [h1]
    cases hfx : f b x with
    | none => simp [optFold, hfx]
    | some b' => simp [optFold, hfx]
  | cons a l ih =>
    have h1 : optFold f b ((a :: l) ++ [x]) = match f b a with
      | none => none
      | some b' => optFold f b' (l ++ [x]) := rfl
    have h2 : optFold f b (a :: l) = match f b a with
      | none => none
      | some b' => optFold f b' l := rfl
    rw [h1, h2]
    cases hfa : f b a with
    | none => rfl
    | some b' => exact ih b'

/-- Python slice index resolution: negative indices count from the end and
both ends are clamped into range. -/
def pyClamp (n : ℕ) (a : Int) : ℕ :=
  if a < 0 then (a + n).toNat else a.toNat.min n

/-- Python slice `l[a:b]`. -/
def pySlice {α : Type} (l : List α) (a b : Int) : List α :=
  (l.take (pyClamp l.length b)).drop (pyClamp l.length a)

/-- Body of the inner loop of `construct_tau_max` (one candidate depth `j` at
one position `i`): add the candidate context to the tree when new (the
`add_node` assert may fail) and bump the counter of context+transition. -/
def scanStep (dmax : ℕ) (joint : List σ) (i : ℕ)
    (st : Tree σ × (List σ → Option ℕ)) (j : ℕ) :
    Option (Tree σ × (List σ → Option ℕ)) :=
  let current := pySlice joint ((i : Int) - (dmax : Int)) ((i : Int) + 1)
  let present := pySlice current (-(j : Int) - 1) (current.length : Int)
  let past := present.dropLast
  match (if 1 ≤ j ∧ past ∉ st.1.nodes then st.1.add_node past else some st.1) with
  | none => none
  | some t' =>
    some (t', Function.update st.2 present (some ((st.2 present).getD 0 + 1)))

/-- Zero-fill of the `m` transition entries of one node (inner loop of the
completion pass of `construct_tau_max`). -/
def zeroFillNode (s : List σ) (cnt : List σ → Option ℕ) (node : List σ) :
    List σ → Option ℕ :=
  s.foldl (fun c b =>
    if c (node ++ [b]) = none then Function.update c (node ++ [b]) (some 0)
    else c) cnt

/-- Zero-fill pass over a list of nodes. -/
def zeroFillOver (s : List σ) (l : List (List σ)) (cnt : List σ → Option ℕ) :
    List σ → Option ℕ :=
  l.foldl (zeroFillNode s) cnt

/-- `construct_tau_max` from `bct_main_with_log.py`: builds the maximal tree
and the transition counter in one scan over the joint sequence, then
zero-fills the missing transition entries of every node.  The root entry of
the counter is seeded with the sample length before the scan. -/
def construct_tau_max (s : List σ) (dmax : ℕ) (sample initial_ctxt : List σ) :
    Option (Tree σ × (List σ → Option ℕ)) :=
  let joint := initial_ctxt ++ sample
  let cnt0 : List σ → Option ℕ :=
    Function.update (fun _ => none) [] (some sample.length)
  match optFold (fun st i => optFold (scanStep dmax joint i) st (List.range (dmax + 1)))
      (Tree.init s, cnt0) (List.range' initial_ctxt.length sample.length) with
  | none => none
  | some (t, cnt) => some (t, zeroFillOver s t.nodes cnt)

/-- The candidate context of length `j` scanned at position `i`. -/
def pastCtx (joint : List σ) (i j : ℕ) : List σ :=
  (joint.drop (i - j)).take j

/-- The candidate context of length `j` at position `i` together with the
transition symbol at `i`. -/
def presentCtx (joint : List σ) (i j : ℕ) : List σ :=
  (joint.drop (i - j)).take (j + 1)

theorem tail_take {α : Type} (l : List α) (n : ℕ) :
    (l.take (n + 1)).tail = l.tail.take n := by
  cases l <;> simp

theorem pySlice_current (joint : List σ) (i dmax : ℕ) (hd : dmax ≤ i)
    (hi : i < joint.length) :
    pySlice joint ((i : Int) - (dmax : Int)) ((i : Int) + 1) =
      (joint.drop (i - dmax)).take (dmax + 1) := by
  unfold pySlice pyClamp
  have h1 : ¬ ((i : Int) - (dmax : Int) < 0) := by omega
  have h2 : ¬ ((i : Int) + 1 < 0) := by omega
  rw [if_neg h1, if_neg h2]
  have h3 : ((i : Int) - (dmax : Int)).toNat = i - dmax := by omega
  have h4 : ((i : Int) + 1).toNat = i + 1 := by omega
  rw [h3, h4]
  have h5 : (i + 1).min joint.length = i + 1 := Nat.min_eq_left (by omega)
  have h6 : (i - dmax).min joint.length = i - dmax := Nat.min_eq_left (by omega)
  rw [h5, h6, List.drop_take]
  congr 1
  omega

theorem pySlice_suffix {α : Type} (l : List α) (j : ℕ) (h : j + 1 ≤ l.length) :
    pySlice l (-(j : Int) - 1) ((l.length : Int)) = l.drop (l.length - (j + 1)) := by
  unfold pySlice pyClamp
  have h1 : (-(j : Int) - 1 < 0) := by omega
  have h2 : ¬ ((l.length : Int) < 0) := by omega
  rw [if_pos h1, if_neg h2]
  have h3 : (-(j : Int) - 1 + (l.length : Int)).toNat = l.length - (j + 1) := by
    omega
  have h4 : (l.length : Int).toNat.min l.length = l.length := by simp
  rw [h3, h4, List.take_length]

theorem presentCtx_length (joint : List σ) (i j : ℕ) (hj : j ≤ i)
    (hi : i < joint.length) : (presentCtx joint i j).length = j + 1 := by
  unfold presentCtx
  rw [List.length_take, List.length_drop]
  omega

theorem pastCtx_length (joint : List σ) (i j : ℕ) (hj : j ≤ i)
    (hi : i < joint.length) : (pastCtx joint i j).length = j := by
  unfold pastCtx
  rw [List.length_take, List.length_drop]
  omega

theorem presentCtx_eq_drop (joint : List σ) (i dmax j : ℕ) (hd : dmax ≤ i)
    (hi : i < joint.length) (hj : j ≤ dmax) :
    ((joint.drop (i - dmax)).take (dmax + 1)).drop (dmax - j) =
      presentCtx joint i j := by
  rw [List.drop_take, List.drop_drop]
  unfold presentCtx
  have e1 : dmax + 1 - (dmax - j) = j + 1 := by omega
  have e2 : i - dmax + (dmax - j) = i - j := by omega
  rw [e1, e2]

theorem presentCtx_dropLast (joint : List σ) (i j : ℕ) (hj : j ≤ i)
    (hi : i < joint.length) :
    (presentCtx joint i j).dropLast = pastCtx joint i j := by
  unfold presentCtx pastCtx
  rw [List.dropLast_eq_take, List.length_take, List.length_drop, List.take_take]
  have m1 : min (j + 1) (joint.length - (i - j)) = j + 1 :=
    Nat.min_eq_left (by omega)
  rw [m1]
  have e1 : j + 1 - 1 = j := rfl
  rw [e1]
  have m2 : min j (j + 1) = j := Nat.min_eq_left (by omega)
  rw [m2]

theorem pastCtx_tail (joint : List σ) (i j : ℕ) (hj : j + 1 ≤ i)
    (hi : i < joint.length) :
    (pastCtx joint i (j + 1)).tail = pastCtx joint i j := by
  unfold pastCtx
  rw [tail_take, List.tail_drop]
  have e : i - (j + 1) + 1 = i - j := by omega
  rw [e]

/-- Normal form of one scan step when the indices are in range. -/
theorem scanStep_eq (dmax : ℕ) (joint : List σ) (i j : ℕ)
    (st : Tree σ × (List σ → Option ℕ))
    (hd : dmax ≤ i) (hi : i < joint.length) (hj : j ≤ dmax) :
    scanStep dmax joint i st j =
      match (if 1 ≤ j ∧ pastCtx joint i j ∉ st.1.nodes
             then st.1.add_node (pastCtx joint i j) else some st.1) with
      | none => none
      | some t' =>
        some (t', Function.update st.2 (presentCtx joint i j)
          (some ((st.2 (presentCtx joint i j)).getD 0 + 1))) := by
  have hcur := pySlice_current joint i dmax hd hi
  have hlen : ((joint.drop (i - dmax)).take (dmax + 1)).length = dmax + 1 := by
    rw [List.length_take, List.length_drop]
    omega
  have hpres : pySlice ((joint.drop (i - dmax)).take (dmax + 1)) (-(j : Int) - 1)
      ((((joint.drop (i - dmax)).take (dmax + 1)).length : Int)) =
      presentCtx joint i j := by
    rw [pySlice_suffix _ j (by rw [hlen]; omega), hlen]
    have e1 : dmax + 1 - (j + 1) = dmax - j := by omega
    rw [e1]
    exact presentCtx_eq_drop joint i dmax j hd hi hj
  have hpast : (presentCtx joint i j).dropLast = pastCtx joint i j :=
    presentCtx_dropLast joint i j (le_trans hj hd) hi
  simp only [scanStep]
  rw [hcur, hpres, hpast]

theorem add_node_parts {t t' : Tree σ} {n : List σ}
    (h : t.add_node n = some t') :
    t'.s = t.s ∧
    t'.nodes = setUpdate t.nodes (t.s.map (fun b => b :: n.tail)) ∧
    t'.edges = dinsert t.edges n.tail (t.s.map (fun b => b :: n.tail)) ∧
    n.tail ∈ t.nodes := by
  unfold Tree.add_node at h
  by_cases hp : n.tail ∈ t.nodes
  · rw [if_pos hp] at h
    obtain rfl := Option.some_inj.mp h
    exact ⟨rfl, rfl, rfl, hp⟩
  · rw [if_neg hp] at h
    exact absurd h (by simp)

theorem dlookup_dinsert_ne_none {α β : Type} [DecidableEq α]
    (d : List (α × β)) (k u : α) (v : β)
    (h : dlookup d u ≠ none) : dlookup (dinsert d k v) u ≠ none := by
  by_cases hu : u = k
  · subst hu
    rw [dlookup_dinsert_self]
    simp
  · rw [dlookup_dinsert_ne _ _ _ _ hu]
    exact h

/-- Effect of the inner loop of the scan (all candidate depths `j < J` at one
position `i`): the invariants are preserved, exactly the keys
`presentCtx joint i j` get bumped by one, and the parent of every context
counted at a depth below `J - 1` ends up recorded in `edges`. -/
theorem scanInner_spec (dmax : ℕ) (joint : List σ) (i : ℕ)
    (hd : dmax ≤ i) (hi : i < joint.length) :
    ∀ (J : ℕ), J ≤ dmax + 1 → ∀ (st st' : Tree σ × (List σ → Option ℕ)),
    StrongInv st.1 → (∀ u ∈ st.1.nodes, u.length ≤ dmax) →
    optFold (scanStep dmax joint i) st (List.range J) = some st' →
    st'.1.s = st.1.s ∧ StrongInv st'.1 ∧
    (∀ u ∈ st'.1.nodes, u.length ≤ dmax) ∧
    (∀ u ∈ st.1.nodes, u ∈ st'.1.nodes) ∧
    (∀ u, dlookup st.1.edges u ≠ none → dlookup st'.1.edges u ≠ none) ∧
    (∀ w, st'.2 w = if ∃ j, j < J ∧ w = presentCtx joint i j
      then some ((st.2 w).getD 0 + 1) else st.2 w) ∧
    (∀ j, j + 1 < J → dlookup st'.1.edges (pastCtx joint i j) ≠ none) := by
  intro J
  induction J with
  | zero =>
    intro _ st st' hinv hlen hfold
    simp only [List.range_zero, optFold] at hfold
    obtain rfl := Option.some_inj.mp hfold
    refine ⟨rfl, hinv, hlen, fun u hu => hu, fun u hu => hu, ?_, ?_⟩
    · intro w
      rw [if_neg]
      rintro ⟨j, hj, -⟩
      omega
    · intro j hj
      omega
  | succ J ih =>
    intro hJ st st' hinv hlen hfold
    rw [List.range_succ, optFold_append] at hfold
    obtain ⟨st₁, h₁, hstep⟩ := Option.bind_eq_some.mp hfold
    obtain ⟨ihs, ihinv, ihlen, ihnodes, ihedges, ihcnt, ihpast⟩ :=
      ih (by omega) st st₁ hinv hlen h₁
    rw [scanStep_eq dmax joint i J st₁ hd hi (by omega)] at hstep
    have hJi : J ≤ i := le_trans (by omega) hd
    have hplen : (pastCtx joint i J).length = J := pastCtx_length joint i J hJi hi
    have hcnt_new : ∀ w₂ : List σ → Option ℕ,
        (∀ w, Function.update st₁.2 (presentCtx joint i J)
            (some ((st₁.2 (presentCtx joint i J)).getD 0 + 1)) w =
          if ∃ j, j < J + 1 ∧ w = presentCtx joint i j
          then some ((st.2 w).getD 0 + 1) else st.2 w) := by
      intro _ w
      by_cases hw : w = presentCtx joint i J
      · subst hw
        rw [Function.update_same]
        have hnone : ¬ ∃ j, j < J ∧ presentCtx joint i J = presentCtx joint i j := by
          rintro ⟨j, hjJ, hje⟩
          have l1 := presentCtx_length joint i J hJi hi
          have l2 := presentCtx_length joint i j (by omega) hi
          rw [hje, l2] at l1
          omega
        rw [ihcnt (presentCtx joint i J), if_neg hnone,
          if_pos ⟨J, by omega, rfl⟩]
      · rw [Function.update_noteq hw, ihcnt w]
        by_cases hx : ∃ j, j < J ∧ w = presentCtx joint i j
        · obtain ⟨j, hj1, hj2⟩ := hx
          rw [if_pos ⟨j, hj1, hj2⟩, if_pos ⟨j, by omega, hj2⟩]
        · rw [if_neg hx, if_neg]
          rintro ⟨j, hj1, hj2⟩
          rcases Nat.lt_succ_iff_lt_or_eq.mp hj1 with h | h
          · exact hx ⟨j, h, hj2⟩
          · subst h
            exact hw hj2
    by_cases hcond : 1 ≤ J ∧ pastCtx joint i J ∉ st₁.1.nodes
    · rw [if_pos hcond] at hstep
      cases hadd : st₁.1.add_node (pastCtx joint i J) with
      | none =>
        rw [hadd] at hstep
        exact absurd hstep (by simp)
      | some t₂ =>
        rw [hadd] at hstep
        obtain rfl := Option.some_inj.mp hstep
        obtain ⟨hs2, hn2, he2, hp2⟩ := add_node_parts hadd
        have hmono2 : ∀ u ∈ st₁.1.nodes, u ∈ t₂.nodes := by
          intro u hu
          rw [hn2]
          exact mem_setUpdate_left hu
        have hemono2 : ∀ u, dlookup st₁.1.edges u ≠ none →
            dlookup t₂.edges u ≠ none := by
          intro u hu
          rw [he2]
          exact dlookup_dinsert_ne_none _ _ _ _ hu
        refine ⟨by rw [hs2, ihs], add_node_strongInv ihinv hadd, ?_, ?_, ?_,
          hcnt_new st₁.2, ?_⟩
        · intro u hu
          rw [hn2] at hu
          rcases mem_setUpdate.mp hu with hu | hu
          · exact ihlen u hu
          · obtain ⟨b, -, rfl⟩ := List.mem_map.mp hu
            have := List.length_tail (pastCtx joint i J)
            simp only [List.length_cons]
            rw [this, hplen]
            omega
        · exact fun u hu => hmono2 u (ihnodes u hu)
        · exact fun u hu => hemono2 u (ihedges u hu)
        · intro j hj
          by_cases hjJ : j + 1 = J
          · have hpt : (pastCtx joint i J).tail = pastCtx joint i j := by
              rw [← hjJ]
              exact pastCtx_tail joint i j (by omega) hi
            rw [he2, hpt]
            rw [dlookup_dinsert_self]
            simp
          · exact hemono2 _ (ihpast j (by omega))
    · rw [if_neg hcond] at hstep
      obtain rfl := Option.some_inj.mp hstep
      refine ⟨ihs, ihinv, ihlen, ihnodes, ihedges, hcnt_new st₁.2, ?_⟩
      intro j hj
      by_cases hjJ : j + 1 = J
      · have hJ1 : 1 ≤ J := by omega
        have hmem : pastCtx joint i J ∈ st₁.1.nodes := by
          by_contra hmem
          exact hcond ⟨hJ1, hmem⟩
        have hne : pastCtx joint i J ≠ [] := by
          intro h
          rw [h] at hplen
          simp at hplen
          omega
        obtain ⟨-, hlook⟩ := ihinv.2.2 _ hmem hne
        have hpt : (pastCtx joint i J).tail = pastCtx joint i j := by
          rw [← hjJ]
          exact pastCtx_tail joint i j (by omega) hi
        rw [← hpt, hlook]
        simp
      · exact ihpast j (by omega)

theorem optFold_cons {α β : Type} (f : β → α → Option β) (b : β) (a : α)
    (l : List α) :
    optFold f b (a :: l) = match f b a with
      | none => none
      | some b' => optFold f b' l := rfl

/-- The counter key `w` is touched while scanning position `i`. -/
def occAt (joint : List σ) (dmax : ℕ) (w : List σ) (i : ℕ) : Prop :=
  ∃ j, j < dmax + 1 ∧ w = presentCtx joint i j

instance (joint : List σ) (dmax : ℕ) (w : List σ) (i : ℕ) :
    Decidable (occAt joint dmax w i) :=
  decidable_of_iff (∃ j, j < dmax + 1 ∧ w = presentCtx joint i j) Iff.rfl

/-- Effect of the whole scan loop of `construct_tau_max` over the position
list `il`: invariants are preserved and every counter key `w` ends up
holding its previous contribution plus the number of scanned positions at
which `w` occurs. -/
theorem scanOuter_spec (dmax : ℕ) (joint : List σ) :
    ∀ (il : List ℕ), (∀ i ∈ il, dmax ≤ i ∧ i < joint.length) →
    ∀ (st st' : Tree σ × (List σ → Option ℕ)),
    StrongInv st.1 → (∀ u ∈ st.1.nodes, u.length ≤ dmax) →
    optFold (fun acc i => optFold (scanStep dmax joint i) acc (List.range (dmax + 1)))
      st il = some st' →
    st'.1.s = st.1.s ∧ StrongInv st'.1 ∧
    (∀ u ∈ st'.1.nodes, u.length ≤ dmax) ∧
    (∀ u ∈ st.1.nodes, u ∈ st'.1.nodes) ∧
    (∀ u, dlookup st.1.edges u ≠ none → dlookup st'.1.edges u ≠ none) ∧
    (∀ w, st'.2 w =
      if il.countP (fun i => decide (occAt joint dmax w i)) = 0
      then st.2 w
      else some ((st.2 w).getD 0 +
        il.countP (fun i => decide (occAt joint dmax w i)))) ∧
    (∀ i ∈ il, ∀ j, j + 1 < dmax + 1 →
      dlookup st'.1.edges (pastCtx joint i j) ≠ none) := by
  intro il
  induction il with
  | nil =>
    intro _ st st' hinv hlen hfold
    simp only [optFold] at hfold
    obtain rfl := Option.some_inj.mp hfold
    refine ⟨rfl, hinv, hlen, fun u hu => hu, fun u hu => hu, ?_, ?_⟩
    · intro w
      rw [if_pos]
      rfl
    · intro i hi
      simp at hi
  | cons i rest ih =>
    intro hvalid st st' hinv hlen hfold
    obtain ⟨hd, hi⟩ := hvalid i (List.mem_cons_self _ _)
    rw [optFold_cons] at hfold
    cases hst₁ : optFold (scanStep dmax joint i) st (List.range (dmax + 1)) with
    | none =>
      rw [hst₁] at hfold
      exact absurd hfold (by simp)
    | some st₁ =>
      rw [hst₁] at hfold
      have hrest : optFold (fun acc i => optFold (scanStep dmax joint i) acc
          (List.range (dmax + 1))) st₁ rest = some st' := hfold
      obtain ⟨is1, iinv1, ilen1, inodes1, iedges1, icnt1, ipast1⟩ :=
        scanInner_spec dmax joint i hd hi (dmax + 1) le_rfl st st₁ hinv hlen hst₁
      obtain ⟨is2, iinv2, ilen2, inodes2, iedges2, icnt2, ipast2⟩ :=
        ih (fun x hx => hvalid x (List.mem_cons_of_mem _ hx)) st₁ st' iinv1 ilen1 hrest
      refine ⟨by rw [is2, is1], iinv2, ilen2,
        fun u hu => inodes2 u (inodes1 u hu),
        fun u hu => iedges2 u (iedges1 u hu), ?_, ?_⟩
      · intro w
        have hw1 : st₁.2 w = if occAt joint dmax w i
            then some ((st.2 w).getD 0 + 1) else st.2 w := by
          rw [icnt1 w]
          by_cases h : occAt joint dmax w i
          · rw [if_pos h,
              if_pos (show ∃ j, j < dmax + 1 ∧ w = presentCtx joint i j from h)]
          · rw [if_neg h,
              if_neg (show ¬ ∃ j, j < dmax + 1 ∧ w = presentCtx joint i j from h)]
        have hcc : (i :: rest).countP (fun x => decide (occAt joint dmax w x)) =
            rest.countP (fun x => decide (occAt joint dmax w x)) +
              (if occAt joint dmax w i then 1 else 0) := by
          rw [List.countP_cons]
          by_cases hocc : occAt joint dmax w i
          · simp [hocc]
          · simp [hocc]
        rw [icnt2 w, hw1, hcc]
        by_cases hocc : occAt joint dmax w i
        · simp only [if_pos hocc]
          by_cases hr : rest.countP (fun x => decide (occAt joint dmax w x)) = 0
          · rw [if_pos hr, if_neg (by omega), hr]
          · rw [if_neg hr, if_neg (by omega)]
            simp only [Option.getD_some]
            congr 1
            omega
        · simp only [if_neg hocc, Nat.add_zero]
      · intro x hx j hj
        rcases List.mem_cons.mp hx with rfl | hx
        · exact iedges2 _ (ipast1 j hj)
        · exact ipast2 x hx j hj

theorem zeroFillNode_fold_spec (u : List σ) :
    ∀ (bs : List σ) (cnt : List σ → Option ℕ) (w : List σ),
    (bs.foldl (fun (c : List σ → Option ℕ) (b : σ) =>
      if c (u ++ [b]) = none then Function.update c (u ++ [b]) (some 0)
      else c) cnt) w =
    if (∃ b ∈ bs, w = u ++ [b]) ∧ cnt w = none then some 0 else cnt w := by
  intro bs
  induction bs with
  | nil =>
    intro cnt w
    rw [List.foldl_nil, if_neg]
    rintro ⟨⟨b, hb, -⟩, -⟩
    simp at hb
  | cons b bs ih =>
    intro cnt w
    rw [List.foldl_cons]
    by_cases hw : w = u ++ [b]
    · by_cases hn : cnt w = none
      · have hkey : cnt (u ++ [b]) = none := by rw [← hw]; exact hn
        rw [if_pos hkey, ih]
        have hupd : Function.update cnt (u ++ [b]) (some 0) w = some 0 := by
          rw [hw, Function.update_same]
        rw [if_neg (fun hc => by rw [hupd] at hc; exact Option.noConfusion hc.2),
          hupd, if_pos ⟨⟨b, List.mem_cons_self _ _, hw⟩, hn⟩]
      · have hkey : ¬ cnt (u ++ [b]) = none := by rw [← hw]; exact hn
        rw [if_neg hkey, ih]
        rw [if_neg (fun hc => hn hc.2), if_neg (fun hc => hn hc.2)]
    · have hupd : ∀ v : Option ℕ,
          (if cnt (u ++ [b]) = none then Function.update cnt (u ++ [b]) (some 0)
           else cnt) w = cnt w := by
        intro v
        by_cases hkey : cnt (u ++ [b]) = none
        · rw [if_pos hkey, Function.update_noteq hw]
        · rw [if_neg hkey]
      rw [ih, hupd (some 0)]
      by_cases hx : (∃ b' ∈ bs, w = u ++ [b']) ∧ cnt w = none
      · rw [if_pos hx, if_pos ⟨⟨hx.1.choose,
          List.mem_cons_of_mem _ hx.1.choose_spec.1, hx.1.choose_spec.2⟩, hx.2⟩]
      · rw [if_neg hx, if_neg]
        rintro ⟨⟨b', hb', hw'⟩, hn⟩
        rcases List.mem_cons.mp hb' with rfl | hb'
        · exact hw hw'
        · exact hx ⟨⟨b', hb', hw'⟩, hn⟩

theorem zeroFillNode_spec (s : List σ) (cnt : List σ → Option ℕ)
    (u w : List σ) :
    zeroFillNode s cnt u w =
      if (∃ b ∈ s, w = u ++ [b]) ∧ cnt w = none then some 0 else cnt w :=
  zeroFillNode_fold_spec u s cnt w

theorem zeroFillOver_spec (s : List σ) :
    ∀ (l : List (List σ)) (cnt : List σ → Option ℕ) (w : List σ),
    zeroFillOver s l cnt w =
      if (∃ u ∈ l, ∃ b ∈ s, w = u ++ [b]) ∧ cnt w = none then some 0
      else cnt w := by
  intro l
  induction l with
  | nil =>
    intro cnt w
    rw [show zeroFillOver s [] cnt = cnt from rfl, if_neg]
    rintro ⟨⟨u, hu, -⟩, -⟩
    simp at hu
  | cons u l ih =>
    intro cnt w
    rw [show zeroFillOver s (u :: l) cnt = zeroFillOver s l (zeroFillNode s cnt u)
      from rfl, ih]
    rw [zeroFillNode_spec]
    by_cases hu : (∃ b ∈ s, w = u ++ [b]) ∧ cnt w = none
    · rw [if_pos hu]
      rw [if_neg (fun hc => Option.noConfusion hc.2),
        if_pos ⟨⟨u, List.mem_cons_self _ _, hu.1⟩, hu.2⟩]
    · rw [if_neg hu]
      by_cases hx : (∃ u' ∈ l, ∃ b ∈ s, w = u' ++ [b]) ∧ cnt w = none
      · rw [if_pos hx, if_pos ⟨⟨hx.1.choose,
          List.mem_cons_of_mem _ hx.1.choose_spec.1, hx.1.choose_spec.2⟩, hx.2⟩]
      · rw [if_neg hx, if_neg]
        rintro ⟨⟨u', hu', hb'⟩, hn⟩
        rcases List.mem_cons.mp hu' with rfl | hu'
        · exact hu ⟨hb', hn⟩
        · exact hx ⟨⟨u', hu', hb'⟩, hn⟩

/-- Number of scanned positions at which counter key `w` occurs. -/
def scanHits (joint : List σ) (dmax initLen n : ℕ) (w : List σ) : ℕ :=
  (List.range' initLen n).countP (fun i => decide (occAt joint dmax w i))

theorem construct_tau_max_eq (s : List σ) (dmax : ℕ)
    (sample initial_ctxt : List σ) :
    construct_tau_max s dmax sample initial_ctxt =
      match optFold (fun st i => optFold (scanStep dmax (initial_ctxt ++ sample) i)
          st (List.range (dmax + 1)))
        (Tree.init s, Function.update (fun _ => none) [] (some sample.length))
        (List.range' initial_ctxt.length sample.length) with
      | none => none
      | some (t, cnt) => some (t, zeroFillOver s t.nodes cnt) := rfl

/-- Characterization of a successful `construct_tau_max` run: the tree is
invariant-satisfying and depth-bounded, the root counter entry still holds
the seeded sample length, and every non-root key holds its occurrence count
(with the zero-fill pass accounting for the `some 0` entries). -/
theorem construct_tau_max_spec (s : List σ) (dmax : ℕ)
    (sample initial_ctxt : List σ) (hd : dmax ≤ initial_ctxt.length)
    {t : Tree σ} {cnt : List σ → Option ℕ}
    (h : construct_tau_max s dmax sample initial_ctxt = some (t, cnt)) :
    t.s = s ∧ StrongInv t ∧ (∀ u ∈ t.nodes, u.length ≤ dmax) ∧
    cnt [] = some sample.length ∧
    (∀ w, w ≠ [] →
      (cnt w).getD 0 =
        scanHits (initial_ctxt ++ sample) dmax initial_ctxt.length
          sample.length w ∧
      (cnt w ≠ none ↔
        scanHits (initial_ctxt ++ sample) dmax initial_ctxt.length
          sample.length w ≠ 0 ∨
        (∃ u ∈ t.nodes, ∃ b ∈ s, w = u ++ [b]))) ∧
    (∀ i ∈ List.range' initial_ctxt.length sample.length, ∀ j, j + 1 < dmax + 1 →
      dlookup t.edges (pastCtx (initial_ctxt ++ sample) i j) ≠ none) := by
  rw [construct_tau_max_eq] at h
  set joint := initial_ctxt ++ sample with hjoint
  set cnt0 : List σ → Option ℕ :=
    Function.update (fun _ => none) [] (some sample.length) with hcnt0
  cases hscan : optFold (fun st i => optFold (scanStep dmax joint i) st
      (List.range (dmax + 1))) (Tree.init s, cnt0)
      (List.range' initial_ctxt.length sample.length) with
  | none =>
    rw [hscan] at h
    exact absurd h (by simp)
  | some st₁ =>
    rw [hscan] at h
    obtain ⟨t₁, cnt₁⟩ := st₁
    have hpair := Option.some_inj.mp h
    have ht : t₁ = t := (Prod.ext_iff.mp hpair).1
    have hcnt : cnt = zeroFillOver s t₁.nodes cnt₁ :=
      ((Prod.ext_iff.mp hpair).2).symm
    subst ht
    have hvalid : ∀ i ∈ List.range' initial_ctxt.length sample.length,
        dmax ≤ i ∧ i < joint.length := by
      intro i hi
      obtain ⟨h1, h2⟩ := List.mem_range'_1.mp hi
      constructor
      · omega
      · rw [hjoint, List.length_append]
        omega
    have hinv0 : StrongInv (Tree.init s) := strongInv_init s
    have hlen0 : ∀ u ∈ (Tree.init s).nodes, u.length ≤ dmax := by
      intro u hu
      rcases List.mem_singleton.mp hu with rfl
      simp
    obtain ⟨hs1, hinv1, hlen1, hnodes1, hedges1, hcnt1, hpast1⟩ :=
      scanOuter_spec dmax joint _ hvalid _ _ hinv0 hlen0 hscan
    dsimp only at hs1 hinv1 hlen1 hnodes1 hedges1 hcnt1 hpast1
    have hocc_nil : ∀ i ∈ List.range' initial_ctxt.length sample.length,
        ¬ occAt joint dmax ([] : List σ) i := by
      rintro i hi ⟨j, hj, hnil⟩
      obtain ⟨h1, h2⟩ := hvalid i hi
      have := presentCtx_length joint i j (by omega) h2
      rw [← hnil] at this
      simp at this
    have hhits_nil : scanHits joint dmax initial_ctxt.length sample.length
        ([] : List σ) = 0 := by
      rw [scanHits, List.countP_eq_zero]
      intro i hi
      simp only [decide_eq_true_eq]
      exact hocc_nil i hi
    have hcnt1_nil : cnt₁ [] = some sample.length := by
      have hhits_nil' : (List.range' initial_ctxt.length sample.length).countP
          (fun i => decide (occAt joint dmax ([] : List σ) i)) = 0 := hhits_nil
      rw [hcnt1 [], if_pos hhits_nil', hcnt0, Function.update_same]
    have hfill : ∀ w, cnt w =
        if (∃ u ∈ t₁.nodes, ∃ b ∈ s, w = u ++ [b]) ∧ cnt₁ w = none then some 0
        else cnt₁ w := by
      intro w
      rw [hcnt]
      exact zeroFillOver_spec s t₁.nodes cnt₁ w
    refine ⟨hs1, hinv1, hlen1, ?_, ?_, ?_⟩
    · rw [hfill [], if_neg, hcnt1_nil]
      rintro ⟨⟨u, -, b, -, hub⟩, -⟩
      have := congrArg List.length hub
      simp at this
    · intro w hw
      have hcnt0w : cnt0 w = none := by
        rw [hcnt0, Function.update_noteq hw]
      have hscanw : cnt₁ w =
          if scanHits joint dmax initial_ctxt.length sample.length w = 0
          then none
          else some (scanHits joint dmax initial_ctxt.length sample.length w) := by
        rw [hcnt1 w, hcnt0w]
        by_cases hz : scanHits joint dmax initial_ctxt.length sample.length w = 0
        · have hz' : (List.range' initial_ctxt.length sample.length).countP
              (fun i => decide (occAt joint dmax w i)) = 0 := hz
          rw [if_pos hz', if_pos hz]
        · have hz' : ¬ (List.range' initial_ctxt.length sample.length).countP
              (fun i => decide (occAt joint dmax w i)) = 0 := hz
          rw [if_neg hz', if_neg hz]
          simp only [Option.getD_none, Nat.zero_add]
          rfl
      constructor
      · rw [hfill w, hscanw]
        by_cases hz : scanHits joint dmax initial_ctxt.length sample.length w = 0
        · rw [if_pos hz, hz]
          by_cases hfl : (∃ u ∈ t₁.nodes, ∃ b ∈ s, w = u ++ [b])
          · rw [if_pos ⟨hfl, rfl⟩]
            rfl
          · rw [if_neg (fun hc => hfl hc.1)]
            rfl
        · rw [if_neg hz, if_neg (fun hc => Option.noConfusion hc.2)]
          rfl
      · rw [hfill w, hscanw]
        by_cases hz : scanHits joint dmax initial_ctxt.length sample.length w = 0
        · rw [if_pos hz]
          by_cases hfl : (∃ u ∈ t₁.nodes, ∃ b ∈ s, w = u ++ [b])
          · rw [if_pos ⟨hfl, rfl⟩]
            constructor
            · intro _
              exact Or.inr hfl
            · intro _
              simp
          · rw [if_neg (fun hc => hfl hc.1)]
            constructor
            · intro hc
              exact absurd rfl hc
            · rintro (hc | hc)
              · exact absurd hz hc
              · exact absurd hc hfl
        · rw [if_neg hz, if_neg (fun hc => Option.noConfusion hc.2)]
          constructor
          · intro _
            exact Or.inl hz
          · intro _
            simp
    · exact fun i hi j hj => hpast1 i hi j hj

theorem scanInner_succeeds (dmax : ℕ) (joint : List σ) (i : ℕ) (s : List σ)
    (hd : dmax ≤ i) (hi : i < joint.length)
    (hsym : ∀ c ∈ joint, c ∈ s) :
    ∀ (J : ℕ), J ≤ dmax + 1 → ∀ (st : Tree σ × (List σ → Option ℕ)),
    StrongInv st.1 → st.1.s = s →
    ∃ st', optFold (scanStep dmax joint i) st (List.range J) = some st' ∧
      StrongInv st'.1 ∧ st'.1.s = s ∧
      (J = 0 ∨ pastCtx joint i (J - 1) ∈ st'.1.nodes) := by
  intro J
  induction J with
  | zero =>
    intro _ st hinv hs
    exact ⟨st, rfl, hinv, hs, Or.inl rfl⟩
  | succ J ih =>
    intro hJ st hinv hs
    obtain ⟨st₁, h₁, hinv₁, hs₁, hpast₁⟩ := ih (by omega) st hinv hs
    rw [List.range_succ, optFold_append, h₁, Option.some_bind]
    rw [scanStep_eq dmax joint i J st₁ hd hi (by omega)]
    have hJi : J ≤ i := le_trans (by omega) hd
    have hplen : (pastCtx joint i J).length = J := pastCtx_length joint i J hJi hi
    by_cases hcond : 1 ≤ J ∧ pastCtx joint i J ∉ st₁.1.nodes
    · rw [if_pos hcond]
      have hJ1 : 1 ≤ J := hcond.1
      have hparent : (pastCtx joint i J).tail ∈ st₁.1.nodes := by
        have hpt : (pastCtx joint i J).tail = pastCtx joint i (J - 1) := by
          have e : (J - 1) + 1 = J := by omega
          rw [← e]
          exact pastCtx_tail joint i (J - 1) (by omega) hi
        rw [hpt]
        rcases hpast₁ with h | h
        · omega
        · exact h
      cases hadd : st₁.1.add_node (pastCtx joint i J) with
      | none =>
        unfold Tree.add_node at hadd
        rw [if_pos hparent] at hadd
        exact absurd hadd (by simp)
      | some t₂ =>
        refine ⟨(t₂, Function.update st₁.2 (presentCtx joint i J)
            (some ((st₁.2 (presentCtx joint i J)).getD 0 + 1))),
          rfl, add_node_strongInv hinv₁ hadd, ?_, Or.inr ?_⟩
        · show t₂.s = s
          rw [(add_node_parts hadd).1, hs₁]
        · show pastCtx joint i (J + 1 - 1) ∈ t₂.nodes
          obtain ⟨-, hn2, -, -⟩ := add_node_parts hadd
          cases hpc : pastCtx joint i J with
          | nil =>
            rw [hpc] at hplen
            simp at hplen
            omega
          | cons b l =>
            have hbj : b ∈ joint := by
              have hmem : b ∈ pastCtx joint i J := by
                rw [hpc]
                exact List.mem_cons_self _ _
              have hsub : (pastCtx joint i J).Sublist joint :=
                (List.take_sublist _ _).trans (List.drop_sublist _ _)
              exact hsub.subset hmem
            have hbs : b ∈ st₁.1.s := by
              rw [hs₁]
              exact hsym b hbj
            rw [hn2]
            apply mem_setUpdate_right
            have hcons : pastCtx joint i (J + 1 - 1) =
                b :: (pastCtx joint i J).tail := by
              show pastCtx joint i J = b :: (pastCtx joint i J).tail
              rw [hpc]
              rfl
            rw [hcons]
            exact List.mem_map_of_mem _ hbs
    · rw [if_neg hcond]
      refine ⟨(st₁.1, Function.update st₁.2 (presentCtx joint i J)
          (some ((st₁.2 (presentCtx joint i J)).getD 0 + 1))),
        rfl, hinv₁, hs₁, Or.inr ?_⟩
      show pastCtx joint i (J + 1 - 1) ∈ st₁.1.nodes
      by_cases hJ0 : J = 0
      · subst hJ0
        show pastCtx joint i 0 ∈ st₁.1.nodes
        have : pastCtx joint i 0 = [] := by
          unfold pastCtx
          simp
        rw [this]
        exact hinv₁.1
      · have : pastCtx joint i J ∈ st₁.1.nodes := by
          by_contra hmem
          exact hcond ⟨by omega, hmem⟩
        exact this

theorem construct_tau_max_succeeds (s : List σ) (dmax : ℕ)
    (sample initial_ctxt : List σ) (hd : dmax ≤ initial_ctxt.length)
    (hsym : ∀ c ∈ initial_ctxt ++ sample, c ∈ s) :
    ∃ t cnt, construct_tau_max s dmax sample initial_ctxt = some (t, cnt) := by
  rw [construct_tau_max_eq]
  set joint := initial_ctxt ++ sample with hjoint
  have houter : ∀ (il : List ℕ), (∀ i ∈ il, dmax ≤ i ∧ i < joint.length) →
      ∀ (st : Tree σ × (List σ → Option ℕ)), StrongInv st.1 → st.1.s = s →
      ∃ st', optFold (fun acc i => optFold (scanStep dmax joint i) acc
        (List.range (dmax + 1))) st il = some st' ∧
        StrongInv st'.1 ∧ st'.1.s = s := by
    intro il
    induction il with
    | nil =>
      intro _ st hinv hs
      exact ⟨st, rfl, hinv, hs⟩
    | cons i rest ih =>
      intro hvalid st hinv hs
      obtain ⟨hd', hi'⟩ := hvalid i (List.mem_cons_self _ _)
      obtain ⟨st₁, h₁, hinv₁, hs₁, -⟩ := scanInner_succeeds dmax joint i s hd' hi'
        (fun c hc => hsym c hc) (dmax + 1) le_rfl st hinv hs
      obtain ⟨st', h', hinv', hs'⟩ :=
        ih (fun x hx => hvalid x (List.mem_cons_of_mem _ hx)) st₁ hinv₁ hs₁
      refine ⟨st', ?_, hinv', hs'⟩
      rw [optFold_cons, h₁]
      exact h'
  have hvalid : ∀ i ∈ List.range' initial_ctxt.length sample.length,
      dmax ≤ i ∧ i < joint.length := by
    intro i hi
    obtain ⟨h1, h2⟩ := List.mem_range'_1.mp hi
    refine ⟨by omega, ?_⟩
    rw [hjoint, List.length_append]
    omega
  obtain ⟨st', hfold, -, -⟩ := houter (List.range' initial_ctxt.length sample.length)
    hvalid (Tree.init s, Function.update (fun _ => none) [] (some sample.length))
    (strongInv_init s) rfl
  rw [hfold]
  exact ⟨st'.1, zeroFillOver s st'.1.nodes st'.2, by rfl⟩

theorem countP_congr_list {α : Type} (l : List α) (p q : α → Bool)
    (h : ∀ a ∈ l, p a = q a) : l.countP p = l.countP q := by
  induction l with
  | nil => rfl
  | cons a t ih =>
    rw [List.countP_cons, List.countP_cons, h a (List.mem_cons_self _ _),
      ih (fun x hx => h x (List.mem_cons_of_mem _ hx))]

theorem sum_map_add_nat {α : Type} (l : List α) (f g : α → ℕ) :
    (l.map (fun a => f a + g a)).sum = (l.map f).sum + (l.map g).sum := by
  induction l with
  | nil => rfl
  | cons a t ih =>
    simp only [List.map_cons, List.sum_cons, ih]
    omega

theorem countP_eq_sum_map {α : Type} (l : List α) (p : α → Bool) :
    l.countP p = (l.map (fun a => if p a then 1 else 0)).sum := by
  induction l with
  | nil => rfl
  | cons a t ih =>
    rw [List.countP_cons, List.map_cons, List.sum_cons, ih]
    omega

theorem sum_countP_fubini {α β : Type} (bs : List β) (l : List α)
    (P : β → α → Bool) :
    (bs.map (fun b => l.countP (P b))).sum =
      (l.map (fun a => bs.countP (fun b => P b a))).sum := by
  induction bs with
  | nil =>
    simp only [List.map_nil, List.sum_nil, List.countP_nil]
    induction l with
    | nil => rfl
    | cons a t ih => simpa using ih
  | cons b bs ih =>
    rw [List.map_cons, List.sum_cons, ih]
    have h1 : l.map (fun a => (b :: bs).countP (fun b' => P b' a)) =
        l.map (fun a => bs.countP (fun b' => P b' a) + if P b a then 1 else 0) := by
      apply List.map_congr_left
      intro a _
      rw [List.countP_cons]
    rw [h1, sum_map_add_nat, ← countP_eq_sum_map]
    omega

theorem countP_eq_one_of_nodup {α : Type} [DecidableEq α] (l : List α)
    (hnd : l.Nodup) (a : α) (ha : a ∈ l) :
    l.countP (fun b => decide (b = a)) = 1 := by
  induction l with
  | nil => simp at ha
  | cons c t ih =>
    rw [List.countP_cons]
    rcases List.mem_cons.mp ha with rfl | ha
    · have hct : a ∉ t := (List.nodup_cons.mp hnd).1
      have h0 : t.countP (fun b => decide (b = a)) = 0 := by
        rw [List.countP_eq_zero]
        intro b hb
        simp only [decide_eq_true_eq]
        rintro rfl
        exact hct hb
      rw [h0]
      simp
    · have hca : ¬ (c = a) := by
        rintro rfl
        exact (List.nodup_cons.mp hnd).1 ha
      rw [ih (List.nodup_cons.mp hnd).2 ha]
      simp [hca]

theorem presentCtx_decomp (joint : List σ) (i j : ℕ) (hj : j ≤ i)
    (hi : i < joint.length) :
    presentCtx joint i j = pastCtx joint i j ++ (joint.drop i).take 1 := by
  unfold presentCtx pastCtx
  rw [List.take_add, List.drop_drop]
  have e : i - j + j = i := by omega
  rw [e]

/-- At a valid scan position the alphabet contributes exactly one occurrence
of `u + b` over all symbols `b` when the context slice equals `u`, and none
otherwise. -/
theorem countP_occAt (s : List σ) (hnd : s.Nodup) (joint : List σ) (dmax : ℕ)
    (u : List σ) (hu : u.length ≤ dmax) (i : ℕ) (hd : dmax ≤ i)
    (hi : i < joint.length) (hmem : ∀ c ∈ joint.drop i, c ∈ s) :
    s.countP (fun b => decide (occAt joint dmax (u ++ [b]) i)) =
      if pastCtx joint i u.length = u then 1 else 0 := by
  have hui : u.length ≤ i := le_trans hu hd
  have hocc : ∀ b : σ, occAt joint dmax (u ++ [b]) i ↔
      u ++ [b] = presentCtx joint i u.length := by
    intro b
    constructor
    · rintro ⟨j, hj, hje⟩
      have hl := presentCtx_length joint i j (by omega) hi
      rw [← hje] at hl
      simp only [List.length_append, List.length_cons, List.length_nil] at hl
      have hju : j = u.length := by omega
      rw [hju] at hje
      exact hje
    · intro h
      exact ⟨u.length, by omega, h⟩
  have hdecomp := presentCtx_decomp joint i u.length hui hi
  cases hdrop : joint.drop i with
  | nil =>
    have := List.length_drop i joint
    rw [hdrop] at this
    simp at this
    omega
  | cons a rest =>
    have ha_s : a ∈ s := hmem a (by rw [hdrop]; exact List.mem_cons_self _ _)
    have htake : (joint.drop i).take 1 = [a] := by rw [hdrop]; rfl
    rw [htake] at hdecomp
    by_cases hpast : pastCtx joint i u.length = u
    · rw [if_pos hpast]
      have hiff : ∀ b : σ, (occAt joint dmax (u ++ [b]) i) ↔ b = a := by
        intro b
        rw [hocc b, hdecomp, hpast]
        constructor
        · intro h
          have h2 := List.append_inj' h (by simp)
          simpa using h2.2
        · rintro rfl
          rfl
      rw [countP_congr_list s _ (fun b => decide (b = a))
        (fun b _ => decide_eq_decide.mpr (hiff b))]
      exact countP_eq_one_of_nodup s hnd a ha_s
    · rw [if_neg hpast, List.countP_eq_zero]
      intro b hb
      simp only [decide_eq_true_eq]
      rw [hocc b, hdecomp]
      intro hcontra
      obtain ⟨h1, -⟩ := List.append_inj' hcontra (by simp)
      exact hpast h1.symm

theorem sum_map_ite_eq_countP {α : Type} (l : List α) (P : α → Prop)
    [DecidablePred P] :
    (l.map (fun a => if P a then 1 else 0)).sum =
      l.countP (fun a => decide (P a)) := by
  induction l with
  | nil => rfl
  | cons a t ih =>
    rw [List.map_cons, List.sum_cons, List.countP_cons, ih]
    by_cases h : P a
    · simp only [if_pos h, decide_eq_true h, if_true]
      omega
    · have e0 : (if (false = true) then (1 : ℕ) else 0) = 0 := rfl
      simp only [if_neg h, decide_eq_false h, e0]
      omega

/-- C3: after a successful `construct_tau_max` with `dmax ≤ len initial_ctxt`,
for every node `u` the transition counts of `u` sum to the number of scanned
positions whose length-`len u` context slice equals `u`; and the root entry
of the counter still holds the seeded sample length. -/
theorem claim_C3 (s : List σ) (dmax : ℕ) (sample initial_ctxt : List σ)
    (hd : dmax ≤ initial_ctxt.length) (hnd : s.Nodup)
    (hsym : ∀ c ∈ sample, c ∈ s)
    {t : Tree σ} {cnt : List σ → Option ℕ}
    (h : construct_tau_max s dmax sample initial_ctxt = some (t, cnt)) :
    cnt [] = some sample.length ∧
    ∀ u ∈ t.nodes,
      (s.map (fun b => (cnt (u ++ [b])).getD 0)).sum =
        ((List.range sample.length).filter (fun k =>
          decide (((initial_ctxt ++ sample).drop
            (initial_ctxt.length + k - u.length)).take u.length = u))).length := by
  obtain ⟨hts, hinv, hlen, hroot, hchar, hpast⟩ :=
    construct_tau_max_spec s dmax sample initial_ctxt hd h
  refine ⟨hroot, ?_⟩
  intro u hu
  have hud : u.length ≤ dmax := hlen u hu
  have hjlen : (initial_ctxt ++ sample).length =
      initial_ctxt.length + sample.length := List.length_append _ _
  have h1 : (s.map (fun b => (cnt (u ++ [b])).getD 0)).sum =
      (s.map (fun b => scanHits (initial_ctxt ++ sample) dmax
        initial_ctxt.length sample.length (u ++ [b]))).sum := by
    congr 1
    apply List.map_congr_left
    intro b _
    exact (hchar (u ++ [b]) (by simp)).1
  have h2 : (s.map (fun b => scanHits (initial_ctxt ++ sample) dmax
      initial_ctxt.length sample.length (u ++ [b]))).sum =
      ((List.range' initial_ctxt.length sample.length).map
        (fun i => s.countP (fun b =>
          decide (occAt (initial_ctxt ++ sample) dmax (u ++ [b]) i)))).sum :=
    sum_countP_fubini s (List.range' initial_ctxt.length sample.length)
      (fun b i => decide (occAt (initial_ctxt ++ sample) dmax (u ++ [b]) i))
  have h3 : ∀ i ∈ List.range' initial_ctxt.length sample.length,
      s.countP (fun b =>
        decide (occAt (initial_ctxt ++ sample) dmax (u ++ [b]) i)) =
      if pastCtx (initial_ctxt ++ sample) i u.length = u then 1 else 0 := by
    intro i hi
    obtain ⟨hge, hlt⟩ := List.mem_range'_1.mp hi
    apply countP_occAt s hnd (initial_ctxt ++ sample) dmax u hud i (by omega)
      (by omega)
    intro c hc
    have hdropeq : (initial_ctxt ++ sample).drop i =
        sample.drop (i - initial_ctxt.length) := by
      calc (initial_ctxt ++ sample).drop i
          = (initial_ctxt ++ sample).drop
              (initial_ctxt.length + (i - initial_ctxt.length)) := by
            congr 1
            omega
        _ = sample.drop (i - initial_ctxt.length) := by rw [List.drop_append]
    rw [hdropeq] at hc
    exact hsym c ((List.drop_sublist _ _).subset hc)
  have h4 : ((List.range' initial_ctxt.length sample.length).map
      (fun i => s.countP (fun b =>
        decide (occAt (initial_ctxt ++ sample) dmax (u ++ [b]) i)))).sum =
      ((List.range' initial_ctxt.length sample.length).map
        (fun i => if pastCtx (initial_ctxt ++ sample) i u.length = u
          then 1 else 0)).sum := by
    congr 1
    exact List.map_congr_left h3
  rw [h1, h2, h4, sum_map_ite_eq_countP, List.range'_eq_map_range,
    List.countP_map, List.countP_eq_length_filter]
  rfl

theorem claim_C3_witness :
    ∃ (t : Tree ℕ) (cnt : List ℕ → Option ℕ),
      construct_tau_max [0, 1] 1 [1, 0] [0] = some (t, cnt) ∧
      cnt [] = some ([1, 0] : List ℕ).length ∧
      ∀ u ∈ t.nodes,
        (([0, 1] : List ℕ).map (fun b => (cnt (u ++ [b])).getD 0)).sum =
          ((List.range ([1, 0] : List ℕ).length).filter (fun k =>
            decide (((([0] : List ℕ) ++ [1, 0]).drop
              (([0] : List ℕ).length + k - u.length)).take u.length
                = u))).length := by
  obtain ⟨t, cnt, h⟩ := construct_tau_max_succeeds [0, 1] 1 [1, 0] [0]
    (by decide) (by decide)
  obtain ⟨h1, h2⟩ := claim_C3 [0, 1] 1 [1, 0] [0] (by decide) (by decide)
    (by decide) h
  exact ⟨t, cnt, h, h1, h2⟩

/-- Fallible map: the Python list comprehension whose body may raise. -/
def optMapM {α β : Type} (f : α → Option β) : List α → Option (List β)
  | [] => some []
  | a :: l =>
    match f a with
    | none => none
    | some b =>
      match optMapM f l with
      | none => none
      | some bs => some (b :: bs)

theorem optMapM_eq_some_map {α β : Type} (f : α → Option β) (g : α → β) :
    ∀ (l : List α), (∀ a ∈ l, f a = some (g a)) →
    optMapM f l = some (l.map g) := by
  intro l
  induction l with
  | nil => intro _; rfl
  | cons a t ih =>
    intro h
    have ha := h a (List.mem_cons_self _ _)
    have ht := ih (fun x hx => h x (List.mem_cons_of_mem _ hx))
    show (match f a with
      | none => none
      | some b =>
        match optMapM f t with
        | none => none
        | some bs => some (b :: bs)) = some ((a :: t).map g)
    rw [ha, ht]
    rfl

/-- `calc_log_pe` from `bct_main_with_log.py`: the log of the KT-style
estimated probability of node `u`.  A missing transition entry (Python
`KeyError`) is modelled as `none`.  Returns exactly `0.0` when all
transition counts are zero. -/
noncomputable def calc_log_pe (s : List σ) (counter : List σ → Option ℕ)
    (u : List σ) : Option ℝ :=
  match optMapM (fun b => counter (u ++ [b])) s with
  | none => none
  | some transition_counts =>
    if transition_counts = List.replicate s.length 0 then some 0
    else
      let log_numerator := (transition_counts.map (fun count =>
        ((List.range count).map (fun (n : ℕ) => Real.log ((n : ℝ) + 1 - 0.5))).sum)).sum
      let nu := transition_counts.sum
      let log_denominator := ((List.range nu).map (fun (n : ℕ) =>
        Real.log ((n : ℝ) + 1 + (s.length : ℝ) / 2 - 1))).sum
      some (log_numerator - log_denominator)

theorem list_range_sum_eq (c : ℕ) (f : ℕ → ℝ) :
    ((List.range c).map f).sum = ∑ n in Finset.range c, f n := by
  induction c with
  | zero => simp
  | succ c ih =>
    rw [List.range_succ, List.map_append, List.sum_append,
      Finset.sum_range_succ, ih]
    simp

theorem range_shift_Icc (c : ℕ) (f : ℕ → ℝ) :
    ((List.range c).map (fun n => f (n + 1))).sum = ∑ n in Finset.Icc 1 c, f n := by
  rw [list_range_sum_eq, ← Nat.Ico_succ_right, Finset.sum_Ico_eq_sum_range]
  have e : c + 1 - 1 = c := rfl
  rw [e]
  apply Finset.sum_congr rfl
  intro n _
  rw [Nat.add_comm]

theorem calc_log_pe_eq_some_counts (s : List σ) (counter : List σ → Option ℕ)
    (u : List σ) (tcs : List ℕ)
    (hm : optMapM (fun b => counter (u ++ [b])) s = some tcs) :
    calc_log_pe s counter u =
      if tcs = List.replicate s.length 0 then some 0
      else some ((tcs.map (fun count =>
        ((List.range count).map (fun (n : ℕ) => Real.log ((n : ℝ) + 1 - 0.5))).sum)).sum -
        ((List.range tcs.sum).map (fun (n : ℕ) =>
          Real.log ((n : ℝ) + 1 + (s.length : ℝ) / 2 - 1))).sum) := by
  unfold calc_log_pe
  rw [hm]

/-- C4: on a node whose `m` transition entries are all present,
`calc_log_pe` returns exactly `0.0` when every count is zero, and otherwise
the KT-estimator value: the sum over symbols of `Σ_{n=1}^{N(u·b)} log(n-0.5)`
minus `Σ_{n=1}^{ν} log(n + m/2 - 1)` with `ν` the total count. -/
theorem claim_C4 (s : List σ) (counter : List σ → Option ℕ) (u : List σ)
    (N : σ → ℕ) (h : ∀ b ∈ s, counter (u ++ [b]) = some (N b)) :
    ((∀ b ∈ s, N b = 0) → calc_log_pe s counter u = some 0) ∧
    ((¬ ∀ b ∈ s, N b = 0) →
      calc_log_pe s counter u = some (
        (s.map (fun b => ∑ n in Finset.Icc 1 (N b),
          Real.log ((n : ℝ) - 0.5))).sum -
        ∑ n in Finset.Icc 1 ((s.map N).sum),
          Real.log ((n : ℝ) + (s.length : ℝ) / 2 - 1))) := by
  have hm := optMapM_eq_some_map (fun b => counter (u ++ [b])) N s h
  rw [calc_log_pe_eq_some_counts s counter u (s.map N) hm]
  constructor
  · intro hz
    rw [if_pos]
    apply List.eq_replicate.mpr
    refine ⟨by simp, ?_⟩
    intro x hx
    obtain ⟨b, hb, rfl⟩ := List.mem_map.mp hx
    exact hz b hb
  · intro hnz
    rw [if_neg]
    · have hnum : ((s.map N).map (fun count =>
          ((List.range count).map (fun (n : ℕ) =>
            Real.log ((n : ℝ) + 1 - 0.5))).sum)).sum =
          (s.map (fun b => ∑ n in Finset.Icc 1 (N b),
            Real.log ((n : ℝ) - 0.5))).sum := by
        rw [List.map_map]
        congr 1
        apply List.map_congr_left
        intro b _
        show ((List.range (N b)).map (fun (n : ℕ) =>
          Real.log ((n : ℝ) + 1 - 0.5))).sum = _
        rw [← range_shift_Icc (N b) (fun n => Real.log ((n : ℝ) - 0.5))]
        apply congrArg List.sum
        apply List.map_congr_left
        intro n _
        congr 1
        push_cast
        ring
      have hden : ((List.range (s.map N).sum).map (fun (n : ℕ) =>
          Real.log ((n : ℝ) + 1 + (s.length : ℝ) / 2 - 1))).sum =
          ∑ n in Finset.Icc 1 ((s.map N).sum),
            Real.log ((n : ℝ) + (s.length : ℝ) / 2 - 1) := by
        rw [← range_shift_Icc ((s.map N).sum)
          (fun n => Real.log ((n : ℝ) + (s.length : ℝ) / 2 - 1))]
        apply congrArg List.sum
        apply List.map_congr_left
        intro n _
        congr 1
        push_cast
        ring
      rw [hnum, hden]
    · intro hc
      apply hnz
      intro b hb
      have hmem : N b ∈ s.map N := List.mem_map_of_mem _ hb
      rw [hc] at hmem
      exact List.eq_of_mem_replicate hmem

/-- Concrete transition counter used to witness C4. -/
def counterEx : List ℕ → Option ℕ := fun w =>
  if w = [0] then some 1 else if w = [1] then some 2 else none

/-- Concrete count function matching `counterEx` at the root. -/
def NEx : ℕ → ℕ := fun b => if b = 0 then 1 else 2

theorem claim_C4_witness :
    ((∀ b ∈ ([0, 1] : List ℕ), NEx b = 0) →
      calc_log_pe [0, 1] counterEx [] = some 0) ∧
    ((¬ ∀ b ∈ ([0, 1] : List ℕ), NEx b = 0) →
      calc_log_pe [0, 1] counterEx [] = some (
        (([0, 1] : List ℕ).map (fun b => ∑ n in Finset.Icc 1 (NEx b),
          Real.log ((n : ℝ) - 0.5))).sum -
        ∑ n in Finset.Icc 1 ((([0, 1] : List ℕ).map NEx).sum),
          Real.log ((n : ℝ) + ((([0, 1] : List ℕ).length : ℝ)) / 2 - 1))) :=
  claim_C4 [0, 1] counterEx [] NEx (by decide)

/-- C10: in the maximal tree, every leaf of depth strictly below `dmax` has
all of its transition counts equal to `0`, hence `calc_log_pe` returns
exactly `0.0` on it, and the `log(beta)` case of the pm recursion coincides
with `log(beta) + log_pe(u)` there. -/
theorem claim_C10 (s : List σ) (dmax : ℕ) (sample initial_ctxt : List σ)
    (hd : dmax ≤ initial_ctxt.length)
    {t : Tree σ} {cnt : List σ → Option ℕ}
    (h : construct_tau_max s dmax sample initial_ctxt = some (t, cnt))
    (u : List σ) (hu : u ∈ t.nodes) (hlen : u.length < dmax)
    (hleaf : dlookup t.edges u = none) :
    (∀ b ∈ s, cnt (u ++ [b]) = some 0) ∧
    calc_log_pe s cnt u = some 0 ∧
    (∀ beta : ℝ,
      Real.log beta + ((calc_log_pe s cnt u).getD 0 : ℝ) = Real.log beta) := by
  obtain ⟨-, -, -, -, hcw, hpast⟩ :=
    construct_tau_max_spec s dmax sample initial_ctxt hd h
  have hzero : ∀ b ∈ s, cnt (u ++ [b]) = some 0 := by
    intro b hb
    have hwne : u ++ [b] ≠ [] := by simp
    obtain ⟨hgetd, hiff⟩ := hcw (u ++ [b]) hwne
    have hsh : scanHits (initial_ctxt ++ sample) dmax initial_ctxt.length
        sample.length (u ++ [b]) = 0 := by
      by_contra hne
      have hpos : 0 < (List.range' initial_ctxt.length sample.length).countP
          (fun i => decide (occAt (initial_ctxt ++ sample) dmax (u ++ [b]) i)) :=
        Nat.pos_of_ne_zero hne
      obtain ⟨i, hi, hocc⟩ := List.countP_pos_iff.mp hpos
      obtain ⟨j, hj, hpres⟩ := of_decide_eq_true hocc
      obtain ⟨hi1, hi2⟩ := List.mem_range'_1.mp hi
      have hdi : dmax ≤ i := le_trans hd hi1
      have hilt : i < (initial_ctxt ++ sample).length := by
        rw [List.length_append]
        omega
      have hji : j ≤ i := le_trans (by omega) hdi
      have hjlen : (u ++ [b]).length = j + 1 := by
        rw [hpres]
        exact presentCtx_length (initial_ctxt ++ sample) i j hji hilt
      have hjval : j = u.length := by
        rw [List.length_append, List.length_singleton] at hjlen
        omega
      have hpc : pastCtx (initial_ctxt ++ sample) i j = u := by
        rw [← presentCtx_dropLast (initial_ctxt ++ sample) i j hji hilt, ← hpres]
        simp
      have := hpast i hi j (by omega)
      rw [hpc] at this
      exact this hleaf
    have hnn : cnt (u ++ [b]) ≠ none := hiff.mpr (Or.inr ⟨u, hu, b, hb, rfl⟩)
    cases hc : cnt (u ++ [b]) with
    | none => exact absurd hc hnn
    | some k =>
      rw [hc, hsh] at hgetd
      simp only [Option.getD_some] at hgetd
      rw [hgetd]
  have hm : optMapM (fun b => cnt (u ++ [b])) s =
      some (s.map (fun _ => 0)) :=
    optMapM_eq_some_map (fun b => cnt (u ++ [b])) (fun _ => 0) s hzero
  have hpe : calc_log_pe s cnt u = some 0 := by
    rw [calc_log_pe_eq_some_counts s cnt u (s.map (fun _ => 0)) hm, if_pos]
    apply List.eq_replicate.mpr
    refine ⟨by simp, ?_⟩
    intro x hx
    obtain ⟨b, -, rfl⟩ := List.mem_map.mp hx
    rfl
  refine ⟨hzero, hpe, ?_⟩
  intro beta
  rw [hpe]
  simp

/-- Concrete C10 instance: with alphabet `{0,1,2}`, `dmax = 2`, initial
context `[0,0]` and sample `[1,0]`, the node `[2]` is materialized as a
sibling, stays a leaf at depth `1 < dmax`, carries only zero transition
counts, and gets `log_pe = 0`. -/
theorem claim_C10_witness :
    ∃ (t : Tree ℕ) (cnt : List ℕ → Option ℕ),
      construct_tau_max [0, 1, 2] 2 [1, 0] [0, 0] = some (t, cnt) ∧
      [2] ∈ t.nodes ∧ dlookup t.edges [2] = none ∧
      (∀ b ∈ ([0, 1, 2] : List ℕ), cnt ([2] ++ [b]) = some 0) ∧
      calc_log_pe [0, 1, 2] cnt [2] = some 0 := by
  cases hres : construct_tau_max ([0, 1, 2] : List ℕ) 2 [1, 0] [0, 0] with
  | none =>
    have hne : (construct_tau_max ([0, 1, 2] : List ℕ) 2 [1, 0] [0, 0]).isNone
        = false := rfl
    rw [hres] at hne
    exact absurd hne (by simp)
  | some p =>
    obtain ⟨t, cnt⟩ := p
    have hnmem : (construct_tau_max ([0, 1, 2] : List ℕ) 2 [1, 0] [0, 0]).map
        (fun q => decide ([2] ∈ q.1.nodes)) = some true := rfl
    have hlf : (construct_tau_max ([0, 1, 2] : List ℕ) 2 [1, 0] [0, 0]).map
        (fun q => decide (dlookup q.1.edges [2] = none)) = some true := rfl
    rw [hres] at hnmem hlf
    simp only [Option.map_some', Option.some_inj, decide_eq_true_eq]
      at hnmem hlf
    obtain ⟨hz, hpe, -⟩ := claim_C10 [0, 1, 2] 2 [1, 0] [0, 0] (by decide)
      hres [2] hnmem (by decide) hlf
    exact ⟨t, cnt, rfl, hnmem, hlf, hz, hpe⟩

theorem optMapM_congr {α β : Type} (f g : α → Option β) :
    ∀ l : List α, (∀ a ∈ l, f a = g a) → optMapM f l = optMapM g l := by
  intro l
  induction l with
  | nil => intro _; rfl
  | cons a t iht =>
    intro h
    have ha := h a (List.mem_cons_self a t)
    have ht := iht (fun x hx => h x (List.mem_cons_of_mem a hx))
    show (match f a with
      | none => none
      | some b =>
        match optMapM f t with
        | none => none
        | some bs => some (b :: bs)) =
      (match g a with
      | none => none
      | some b =>
        match optMapM g t with
        | none => none
        | some bs => some (b :: bs))
    rw [ha, ht]

/-- Body of the per-node step of `construct_log_pm_dict`: a maximum-depth
node copies its `log_pe` value, a shallower leaf gets `log(beta)`, and an
internal node takes the maximum of the stop and split scores.  The Python
`KeyError` on a missing `log_pe_dict` or child `log_pm_dict` entry is
modelled as `none`. -/
noncomputable def pmStep (dmax : ℕ) (beta : ℝ) (tree : Tree σ)
    (log_pe_dict : List σ → Option ℝ) (log_pm_dict : List σ → Option ℝ)
    (node : List σ) : Option (List σ → Option ℝ) :=
  if node.length = dmax then
    match log_pe_dict node with
    | none => none
    | some pe => some (Function.update log_pm_dict node (some pe))
  else
    match dlookup tree.edges node with
    | none => some (Function.update log_pm_dict node (some (Real.log beta)))
    | some children =>
      match optMapM log_pm_dict children, log_pe_dict node with
      | some vs, some pe =>
        some (Function.update log_pm_dict node
          (some (max (Real.log beta + pe) (Real.log (1 - beta) + vs.sum))))
      | _, _ => none

/-- `construct_log_pm_dict` from `bct_main_with_log.py`: bottom-up dynamic
program over the node depths `dmax, dmax-1, ..., 0`. -/
noncomputable def construct_log_pm_dict (s : List σ) (dmax : ℕ) (beta : ℝ)
    (tree : Tree σ) (log_pe_dict : List σ → Option ℝ) :
    Option (List σ → Option ℝ) :=
  optFold (fun log_pm_dict size =>
      optFold (pmStep dmax beta tree log_pe_dict) log_pm_dict
        (tree.nodes.filter (fun node => decide (node.length = size))))
    (fun _ => none) ((List.range (dmax + 1)).reverse)

/-- The intended value of one `log_pm_dict` entry: the three cases of the
pm recursion, phrased against the final dictionary. -/
def PmSpec (dmax : ℕ) (beta : ℝ) (tree : Tree σ)
    (pe pm : List σ → Option ℝ) (u : List σ) : Prop :=
  (u.length = dmax → pm u = pe u ∧ pm u ≠ none) ∧
  (u.length ≠ dmax → dlookup tree.edges u = none →
    pm u = some (Real.log beta)) ∧
  (u.length ≠ dmax → ∀ children, dlookup tree.edges u = some children →
    ∃ vs p, optMapM pm children = some vs ∧ pe u = some p ∧
      pm u = some (max (Real.log beta + p) (Real.log (1 - beta) + vs.sum)))

theorem pmSpec_update (dmax : ℕ) (beta : ℝ) (tree : Tree σ)
    (pe pm : List σ → Option ℝ) (hinv : StrongInv tree)
    (u x : List σ) (v : Option ℝ) (hspec : PmSpec dmax beta tree pe pm u)
    (hne : u ≠ x) (hx : x.length ≤ u.length) :
    PmSpec dmax beta tree pe (Function.update pm x v) u := by
  obtain ⟨h1, h2, h3⟩ := hspec
  have hpu : Function.update pm x v u = pm u := Function.update_noteq hne _ _
  refine ⟨?_, ?_, ?_⟩
  · intro hd
    rw [hpu]
    exact h1 hd
  · intro hd hlk
    rw [hpu]
    exact h2 hd hlk
  · intro hd ch hch
    obtain ⟨vs, p, hvs, hp, hpm⟩ := h3 hd ch hch
    refine ⟨vs, p, ?_, hp, by rw [hpu]; exact hpm⟩
    rw [← hvs]
    apply optMapM_congr
    intro c hc
    apply Function.update_noteq
    have hmem : (u, ch) ∈ tree.edges := dlookup_mem hch
    have hcanon : ch = tree.s.map (· :: u) := (hinv.2.1 (u, ch) hmem).1
    rw [hcanon] at hc
    obtain ⟨b, -, rfl⟩ := List.mem_map.mp hc
    intro hcx
    have hL := congrArg List.length hcx
    simp only [List.length_cons] at hL
    omega

theorem pmStep_spec (dmax : ℕ) (beta : ℝ) (tree : Tree σ)
    (pe pm pm' : List σ → Option ℝ) (hinv : StrongInv tree) (x : List σ)
    (hstep : pmStep dmax beta tree pe pm x = some pm') :
    (∃ v, pm' = Function.update pm x v) ∧ PmSpec dmax beta tree pe pm' x := by
  by_cases hxd : x.length = dmax
  · unfold pmStep at hstep
    rw [if_pos hxd] at hstep
    cases hpe : pe x with
    | none =>
      rw [hpe] at hstep
      exact Option.noConfusion hstep
    | some p =>
      rw [hpe] at hstep
      have hpm' : pm' = Function.update pm x (some p) :=
        (Option.some_inj.mp hstep).symm
      refine ⟨⟨some p, hpm'⟩, ?_, ?_, ?_⟩
      · intro _
        rw [hpm', Function.update_same, hpe]
        exact ⟨rfl, by simp⟩
      · intro hne
        exact absurd hxd hne
      · intro hne
        exact absurd hxd hne
  · unfold pmStep at hstep
    rw [if_neg hxd] at hstep
    cases hlk : dlookup tree.edges x with
    | none =>
      rw [hlk] at hstep
      have hpm' : pm' = Function.update pm x (some (Real.log beta)) :=
        (Option.some_inj.mp hstep).symm
      refine ⟨⟨_, hpm'⟩, ?_, ?_, ?_⟩
      · intro hd
        exact absurd hd hxd
      · intro _ _
        rw [hpm', Function.update_same]
      · intro _ children hch
        rw [hlk] at hch
        exact Option.noConfusion hch
    | some ch =>
      rw [hlk] at hstep
      have hstep' : (match optMapM pm ch, pe x with
          | some vs, some p =>
            some (Function.update pm x
              (some (max (Real.log beta + p) (Real.log (1 - beta) + vs.sum))))
          | _, _ => none) = some pm' := hstep
      cases hmm : optMapM pm ch with
      | none =>
        rw [hmm] at hstep'
        exact Option.noConfusion hstep'
      | some vs =>
        rw [hmm] at hstep'
        cases hpe : pe x with
        | none =>
          rw [hpe] at hstep'
          exact Option.noConfusion hstep'
        | some p =>
          rw [hpe] at hstep'
          have hpm' : pm' = Function.update pm x
              (some (max (Real.log beta + p)
                (Real.log (1 - beta) + vs.sum))) :=
            (Option.some_inj.mp hstep').symm
          refine ⟨⟨_, hpm'⟩, ?_, ?_, ?_⟩
          · intro hd
            exact absurd hd hxd
          · intro _ hnone
            rw [hlk] at hnone
            exact Option.noConfusion hnone
          · intro _ children hch
            rw [hlk] at hch
            cases Option.some_inj.mp hch
            refine ⟨vs, p, ?_, hpe, by rw [hpm', Function.update_same]⟩
            rw [← hmm, hpm']
            apply optMapM_congr
            intro c hc
            apply Function.update_noteq
            have hmem : (x, ch) ∈ tree.edges := dlookup_mem hlk
            have hcanon : ch = tree.s.map (· :: x) := (hinv.2.1 (x, ch) hmem).1
            rw [hcanon] at hc
            obtain ⟨b, -, rfl⟩ := List.mem_map.mp hc
            intro hcx
            have hL := congrArg List.length hcx
            simp only [List.length_cons] at hL
            omega

theorem pmPass_inv (dmax : ℕ) (beta : ℝ) (tree : Tree σ)
    (pe : List σ → Option ℝ) (hinv : StrongInv tree) (k : ℕ) :
    ∀ (l C : List (List σ)) (pm0 pm1 : List σ → Option ℝ),
    (∀ x ∈ l, x.length = k) →
    (∀ x ∈ C, x.length = k) →
    (∀ u ∈ tree.nodes, k < u.length ∨ u ∈ C → PmSpec dmax beta tree pe pm0 u) →
    optFold (pmStep dmax beta tree pe) pm0 l = some pm1 →
    ∀ u ∈ tree.nodes, k < u.length ∨ u ∈ C ++ l →
      PmSpec dmax beta tree pe pm1 u := by
  intro l
  induction l with
  | nil =>
    intro C pm0 pm1 _ _ hspec h u hu hcase
    have hpm : pm0 = pm1 := Option.some_inj.mp h
    rw [← hpm]
    apply hspec u hu
    rw [List.append_nil] at hcase
    exact hcase
  | cons x xs ih =>
    intro C pm0 pm1 hl hC hspec h u hu hcase
    rw [optFold_cons] at h
    cases hstep : pmStep dmax beta tree pe pm0 x with
    | none =>
      rw [hstep] at h
      exact Option.noConfusion h
    | some pm0' =>
      rw [hstep] at h
      obtain ⟨⟨v, hv⟩, hspecx⟩ :=
        pmStep_spec dmax beta tree pe pm0 pm0' hinv x hstep
      have hxk : x.length = k := hl x (List.mem_cons_self x xs)
      have hspec' : ∀ u' ∈ tree.nodes, k < u'.length ∨ u' ∈ C ++ [x] →
          PmSpec dmax beta tree pe pm0' u' := by
        intro u' hu' hc'
        by_cases hux : u' = x
        · subst hux
          exact hspecx
        · have hlen' : x.length ≤ u'.length := by
            rcases hc' with hgt | hmem
            · omega
            · rcases List.mem_append.mp hmem with hmC | hmx
              · rw [hxk, hC u' hmC]
              · exact absurd (List.mem_singleton.mp hmx) hux
          have hold : PmSpec dmax beta tree pe pm0 u' := by
            apply hspec u' hu'
            rcases hc' with hgt | hmem
            · exact Or.inl hgt
            · rcases List.mem_append.mp hmem with hmC | hmx
              · exact Or.inr hmC
              · exact absurd (List.mem_singleton.mp hmx) hux
          rw [hv]
          exact pmSpec_update dmax beta tree pe pm0 hinv u' x v hold hux hlen'
      refine ih (C ++ [x]) pm0' pm1 ?_ ?_ hspec' h u hu ?_
      · exact fun y hy => hl y (List.mem_cons_of_mem x hy)
      · intro y hy
        rcases List.mem_append.mp hy with hyC | hyx
        · exact hC y hyC
        · rw [List.mem_singleton.mp hyx]
          exact hxk
      · rcases hcase with hgt | hmem
        · exact Or.inl hgt
        · refine Or.inr ?_
          rw [List.append_assoc, List.singleton_append]
          exact hmem

theorem pmLevels_inv (dmax : ℕ) (beta : ℝ) (tree : Tree σ)
    (pe : List σ → Option ℝ) (hinv : StrongInv tree) :
    ∀ (k : ℕ) (pm0 pm1 : List σ → Option ℝ),
    (∀ u ∈ tree.nodes, k ≤ u.length → PmSpec dmax beta tree pe pm0 u) →
    optFold (fun pm size => optFold (pmStep dmax beta tree pe) pm
        (tree.nodes.filter (fun node => decide (node.length = size)))) pm0
      ((List.range k).reverse) = some pm1 →
    ∀ u ∈ tree.nodes, PmSpec dmax beta tree pe pm1 u := by
  intro k
  induction k with
  | zero =>
    intro pm0 pm1 hspec h u hu
    rw [List.range_zero, List.reverse_nil] at h
    have hpm : pm0 = pm1 := Option.some_inj.mp h
    rw [← hpm]
    exact hspec u hu (Nat.zero_le _)
  | succ k ih =>
    intro pm0 pm1 hspec h u hu
    rw [List.range_succ, List.reverse_append, List.reverse_singleton,
      List.singleton_append, optFold_cons] at h
    cases hpass : optFold (pmStep dmax beta tree pe) pm0
        (tree.nodes.filter (fun node => decide (node.length = k))) with
    | none =>
      rw [hpass] at h
      exact Option.noConfusion h
    | some pmk =>
      rw [hpass] at h
      refine ih pmk pm1 ?_ h u hu
      intro u' hu' hk
      refine pmPass_inv dmax beta tree pe hinv k
        (tree.nodes.filter (fun node => decide (node.length = k))) [] pm0 pmk
        ?_ ?_ ?_ hpass u' hu' ?_
      · intro y hy
        exact of_decide_eq_true (List.mem_filter.mp hy).2
      · intro y hy
        exact absurd hy (List.not_mem_nil y)
      · intro w hw hc
        rcases hc with hgt | hmem
        · exact hspec w hw (by omega)
        · exact absurd hmem (List.not_mem_nil w)
      · by_cases hlt : k < u'.length
        · exact Or.inl hlt
        · refine Or.inr ?_
          have heq : u'.length = k := by omega
          exact List.mem_filter.mpr ⟨hu', by rw [heq]; simp⟩

/-- C1: on an invariant-satisfying, depth-bounded tree, a successful
`construct_log_pm_dict` run assigns to every node: its `log_pe` value at
depth `dmax`, `log(beta)` at a shallower leaf, and otherwise the maximum of
`log(beta) + log_pe(u)` and `log(1-beta)` plus the sum of the children's
final `log_pm` values (bottom-up, so each child is settled before its
parent). -/
theorem claim_C1 (s : List σ) (dmax : ℕ) (beta : ℝ) (tree : Tree σ)
    (log_pe_dict pm : List σ → Option ℝ)
    (hinv : StrongInv tree) (hlen : ∀ u ∈ tree.nodes, u.length ≤ dmax)
    (h : construct_log_pm_dict s dmax beta tree log_pe_dict = some pm) :
    ∀ u ∈ tree.nodes,
      (u.length = dmax → pm u = log_pe_dict u) ∧
      (u.length < dmax → dlookup tree.edges u = none →
        pm u = some (Real.log beta)) ∧
      (u.length < dmax → ∀ children, dlookup tree.edges u = some children →
        ∃ vs p, optMapM pm children = some vs ∧ log_pe_dict u = some p ∧
          pm u = some (max (Real.log beta + p)
            (Real.log (1 - beta) + vs.sum))) := by
  unfold construct_log_pm_dict at h
  intro u hu
  have hib : ∀ u' ∈ tree.nodes, dmax + 1 ≤ u'.length →
      PmSpec dmax beta tree log_pe_dict (fun _ => none) u' := by
    intro u' hu' hlen'
    exact absurd (hlen u' hu') (by omega)
  obtain ⟨h1, h2, h3⟩ :=
    pmLevels_inv dmax beta tree log_pe_dict hinv (dmax + 1)
      (fun _ => none) pm hib h u hu
  exact ⟨fun hd => (h1 hd).1, fun hd hlk => h2 (by omega) hlk,
    fun hd ch hch => h3 (by omega) ch hch⟩

/-- Concrete tree used to witness C1: a depth-2 maximal-tree shape over the
alphabet `{0,1}` with an internal root, one internal and one leaf child,
and two maximum-depth leaves. -/
def treeC1 : Tree ℕ :=
  ⟨[0, 1], [[], [0], [1], [0, 0], [1, 0]],
    [([], [[0], [1]]), ([0], [[0, 0], [1, 0]])]⟩

/-- Constant `log_pe` dictionary used to witness C1. -/
def peC1 : List ℕ → Option ℝ := fun _ => some 0

theorem claim_C1_witness :
    ∃ pm : List ℕ → Option ℝ,
      construct_log_pm_dict [0, 1] 2 ((1 : ℝ)/2) treeC1 peC1 = some pm ∧
      ∀ u ∈ treeC1.nodes,
        (u.length = 2 → pm u = peC1 u) ∧
        (u.length < 2 → dlookup treeC1.edges u = none →
          pm u = some (Real.log ((1 : ℝ)/2))) ∧
        (u.length < 2 → ∀ children, dlookup treeC1.edges u = some children →
          ∃ vs p, optMapM pm children = some vs ∧ peC1 u = some p ∧
            pm u = some (max (Real.log ((1 : ℝ)/2) + p)
              (Real.log (1 - (1 : ℝ)/2) + vs.sum))) := by
  cases hres : construct_log_pm_dict [0, 1] 2 ((1 : ℝ)/2) treeC1 peC1 with
  | none =>
    have hne : (construct_log_pm_dict [0, 1] 2 ((1 : ℝ)/2) treeC1
        peC1).isNone = false := rfl
    rw [hres] at hne
    exact absurd hne (by simp)
  | some pm =>
    exact ⟨pm, rfl, claim_C1 [0, 1] 2 ((1 : ℝ)/2) treeC1 peC1 pm
      (by unfold StrongInv; decide) (by decide) hres⟩

/-- The top-down pruning pass of `bct` (the `while queue` loop).  One
iteration dequeues the head node; a leaf gets no decision, an internal node
is pruned exactly when the stop score strictly beats the split score, and
otherwise its children are enqueued.  The Python loop has no explicit bound;
the recursion is given a fuel parameter here, with exhaustion modelled as
failure, and a missing `log_pm_dict` or `log_pe_dict` entry (`KeyError`) as
`none`. -/
noncomputable def pruneLoop (beta : ℝ) (pe pm : List σ → Option ℝ) :
    ℕ → Tree σ → List (List σ) → Option (Tree σ)
  | 0, tau, queue =>
    match queue with
    | [] => some tau
    | _ :: _ => none
  | fuel + 1, tau, queue =>
    match queue with
    | [] => some tau
    | node :: rest =>
      match dlookup tau.edges node with
      | none => pruneLoop beta pe pm fuel tau rest
      | some children =>
        match optMapM pm children, pe node with
        | some vs, some p =>
          if Real.log beta + p > Real.log (1 - beta) + vs.sum then
            pruneLoop beta pe pm fuel (tau.prune_at_node node) rest
          else
            pruneLoop beta pe pm fuel tau (rest ++ children)
        | _, _ => none

/-- The `log_pe` dictionary built by `bct`: defined on the maximal tree's
nodes only. -/
noncomputable def peDict (s : List σ) (tau : Tree σ)
    (counter : List σ → Option ℕ) : List σ → Option ℝ :=
  fun u => if u ∈ tau.nodes then calc_log_pe s counter u else none

/-- `bct` from `bct_main_with_log.py`: maximal tree and counts, per-node
`log_pe` dictionary (built eagerly, so any failure aborts), bottom-up
`log_pm` dictionary, top-down pruning from the root, and finally
`pm_root = exp(log_pm_dict[""])`. -/
noncomputable def bct (s : List σ) (dmax : ℕ) (beta : ℝ)
    (sample initial_ctxt : List σ) : Option (Tree σ × ℝ) :=
  match construct_tau_max s dmax sample initial_ctxt with
  | none => none
  | some (tau, counter) =>
    match optMapM (fun u => calc_log_pe s counter u) tau.nodes with
    | none => none
    | some _ =>
      match construct_log_pm_dict s dmax beta tau (peDict s tau counter) with
      | none => none
      | some log_pm_dict =>
        match pruneLoop beta (peDict s tau counter) log_pm_dict
            (tau.nodes.length + 1) tau [[]] with
        | none => none
        | some tau' =>
          match log_pm_dict [] with
          | none => none
          | some v => some (tau', Real.exp v)

theorem pruneLoop_cons (beta : ℝ) (pe pm : List σ → Option ℝ) (fuel : ℕ)
    (tau : Tree σ) (node : List σ) (rest : List (List σ)) :
    pruneLoop beta pe pm (fuel + 1) tau (node :: rest) =
      match dlookup tau.edges node with
      | none => pruneLoop beta pe pm fuel tau rest
      | some children =>
        match optMapM pm children, pe node with
        | some vs, some p =>
          if Real.log beta + p > Real.log (1 - beta) + vs.sum then
            pruneLoop beta pe pm fuel (tau.prune_at_node node) rest
          else
            pruneLoop beta pe pm fuel tau (rest ++ children)
        | _, _ => none := rfl

/-- C2: one iteration of the pruning pass on a dequeued internal node:
the subtree is pruned exactly when `log(beta) + log_pe(u)` strictly exceeds
`log(1-beta)` plus the children's `log_pm` sum; otherwise (in particular on
an exact tie) the children are enqueued and the node is kept. -/
theorem claim_C2 (beta : ℝ) (pe pm : List σ → Option ℝ) (fuel : ℕ)
    (tau : Tree σ) (node : List σ) (rest : List (List σ))
    (children : List (List σ)) (vs : List ℝ) (p : ℝ)
    (hch : dlookup tau.edges node = some children)
    (hvs : optMapM pm children = some vs) (hp : pe node = some p) :
    (Real.log beta + p > Real.log (1 - beta) + vs.sum →
      pruneLoop beta pe pm (fuel + 1) tau (node :: rest) =
        pruneLoop beta pe pm fuel (tau.prune_at_node node) rest) ∧
    (¬ Real.log beta + p > Real.log (1 - beta) + vs.sum →
      pruneLoop beta pe pm (fuel + 1) tau (node :: rest) =
        pruneLoop beta pe pm fuel tau (rest ++ children)) ∧
    (Real.log beta + p = Real.log (1 - beta) + vs.sum →
      pruneLoop beta pe pm (fuel + 1) tau (node :: rest) =
        pruneLoop beta pe pm fuel tau (rest ++ children)) := by
  have hbase : pruneLoop beta pe pm (fuel + 1) tau (node :: rest) =
      if Real.log beta + p > Real.log (1 - beta) + vs.sum then
        pruneLoop beta pe pm fuel (tau.prune_at_node node) rest
      else pruneLoop beta pe pm fuel tau (rest ++ children) := by
    rw [pruneLoop_cons, hch]
    show (match optMapM pm children, pe node with
      | some vs', some p' =>
        if Real.log beta + p' > Real.log (1 - beta) + vs'.sum then
          pruneLoop beta pe pm fuel (tau.prune_at_node node) rest
        else
          pruneLoop beta pe pm fuel tau (rest ++ children)
      | _, _ => none) = _
    rw [hvs, hp]
  exact ⟨fun h => by rw [hbase, if_pos h],
    fun h => by rw [hbase, if_neg h],
    fun h => by rw [hbase, if_neg (not_lt.mpr (le_of_eq h))]⟩

theorem claim_C2_witness :
    (Real.log ((1 : ℝ)/2) + 0 >
        Real.log (1 - (1 : ℝ)/2) + ([0, 0] : List ℝ).sum →
      pruneLoop ((1 : ℝ)/2) (fun _ => some 0) (fun _ => some 0) 1 treeC1
          [[]] =
        pruneLoop ((1 : ℝ)/2) (fun _ => some 0) (fun _ => some 0) 0
          (treeC1.prune_at_node []) []) ∧
    (¬ Real.log ((1 : ℝ)/2) + 0 >
        Real.log (1 - (1 : ℝ)/2) + ([0, 0] : List ℝ).sum →
      pruneLoop ((1 : ℝ)/2) (fun _ => some 0) (fun _ => some 0) 1 treeC1
          [[]] =
        pruneLoop ((1 : ℝ)/2) (fun _ => some 0) (fun _ => some 0) 0 treeC1
          ([] ++ [[0], [1]])) ∧
    (Real.log ((1 : ℝ)/2) + 0 =
        Real.log (1 - (1 : ℝ)/2) + ([0, 0] : List ℝ).sum →
      pruneLoop ((1 : ℝ)/2) (fun _ => some 0) (fun _ => some 0) 1 treeC1
          [[]] =
        pruneLoop ((1 : ℝ)/2) (fun _ => some 0) (fun _ => some 0) 0 treeC1
          ([] ++ [[0], [1]])) :=
  claim_C2 ((1 : ℝ)/2) (fun _ => some 0) (fun _ => some 0) 0 treeC1 [] []
    [[0], [1]] [0, 0] 0 rfl rfl rfl

theorem optMapM_isSome {α β : Type} (f : α → Option β) :
    ∀ l : List α, (∀ a ∈ l, f a ≠ none) → ∃ bs, optMapM f l = some bs := by
  intro l
  induction l with
  | nil => intro _; exact ⟨[], rfl⟩
  | cons a t iht =>
    intro h
    obtain ⟨b, hb⟩ := Option.ne_none_iff_exists'.mp (h a (List.mem_cons_self a t))
    obtain ⟨bs, hbs⟩ := iht (fun x hx => h x (List.mem_cons_of_mem a hx))
    refine ⟨b :: bs, ?_⟩
    show (match f a with
      | none => none
      | some b =>
        match optMapM f t with
        | none => none
        | some bs => some (b :: bs)) = some (b :: bs)
    rw [hb, hbs]

theorem calc_log_pe_isSome (s : List σ) (counter : List σ → Option ℕ)
    (u : List σ) (h : ∀ b ∈ s, counter (u ++ [b]) ≠ none) :
    ∃ r, calc_log_pe s counter u = some r := by
  obtain ⟨tcs, htcs⟩ := optMapM_isSome (fun b => counter (u ++ [b])) s h
  rw [calc_log_pe_eq_some_counts s counter u tcs htcs]
  by_cases h0 : tcs = List.replicate s.length 0
  · exact ⟨0, if_pos h0⟩
  · exact ⟨_, if_neg h0⟩

theorem scanStep_zero (joint : List σ) (i : ℕ) (hi : i < joint.length)
    (st : Tree σ × (List σ → Option ℕ)) :
    scanStep 0 joint i st 0 =
      some (st.1, Function.update st.2 (presentCtx joint i 0)
        (some ((st.2 (presentCtx joint i 0)).getD 0 + 1))) := by
  rw [scanStep_eq 0 joint i 0 st (Nat.zero_le i) hi (le_refl 0)]
  rw [if_neg]
  rintro ⟨h1, -⟩
  omega

theorem scanOuter_zero (joint : List σ) :
    ∀ il : List ℕ, (∀ i ∈ il, i < joint.length) →
    ∀ st : Tree σ × (List σ → Option ℕ), ∃ c,
      optFold (fun acc i => optFold (scanStep 0 joint i) acc
        (List.range (0 + 1))) st il = some (st.1, c) := by
  intro il
  induction il with
  | nil =>
    intro _ st
    exact ⟨st.2, rfl⟩
  | cons i il ihl =>
    intro hmem st
    have hi : i < joint.length := hmem i (List.mem_cons_self i il)
    rw [optFold_cons]
    have hin : optFold (scanStep 0 joint i) st (List.range (0 + 1)) =
        some (st.1, Function.update st.2 (presentCtx joint i 0)
          (some ((st.2 (presentCtx joint i 0)).getD 0 + 1))) := by
      have hr1 : List.range (0 + 1) = [0] := rfl
      rw [hr1, optFold_cons, scanStep_zero joint i hi st]
      rfl
    rw [hin]
    obtain ⟨c, hc⟩ := ihl (fun x hx => hmem x (List.mem_cons_of_mem i hx))
      (st.1, Function.update st.2 (presentCtx joint i 0)
        (some ((st.2 (presentCtx joint i 0)).getD 0 + 1)))
    exact ⟨c, hc⟩

theorem construct_tau_max_zero (s : List σ) (sample initial_ctxt : List σ) :
    ∃ cnt, construct_tau_max s 0 sample initial_ctxt =
      some (Tree.init s, cnt) := by
  rw [construct_tau_max_eq]
  obtain ⟨c, hc⟩ := scanOuter_zero (initial_ctxt ++ sample)
    (List.range' initial_ctxt.length sample.length)
    (by
      intro i hi
      obtain ⟨-, h2⟩ := List.mem_range'_1.mp hi
      rw [List.length_append]
      omega)
    (Tree.init s, Function.update (fun _ => none) [] (some sample.length))
  rw [hc]
  exact ⟨_, rfl⟩

theorem construct_log_pm_dict_zero (s : List σ) (beta : ℝ) (tau : Tree σ)
    (pe : List σ → Option ℝ) (hnodes : tau.nodes = [[]]) (r : ℝ)
    (hr : pe [] = some r) :
    construct_log_pm_dict s 0 beta tau pe =
      some (Function.update (fun _ => none) [] (some r)) := by
  unfold construct_log_pm_dict
  rw [hnodes]
  have h1 : (List.range (0 + 1)).reverse = [0] := rfl
  rw [h1, optFold_cons]
  have h2 : ([([] : List σ)]).filter (fun node => decide (node.length = 0)) =
      [[]] := rfl
  rw [h2, optFold_cons]
  have h3 : pmStep 0 beta tau pe (fun _ => none) [] =
      some (Function.update (fun _ => none) [] (some r)) := by
    unfold pmStep
    rw [if_pos (show ([] : List σ).length = 0 from rfl), hr]
  rw [h3]
  rfl

theorem pruneLoop_leaf_root (beta : ℝ) (pe pm : List σ → Option ℝ)
    (fuel : ℕ) (tau : Tree σ) (hedges : dlookup tau.edges [] = none) :
    pruneLoop beta pe pm (fuel + 1) tau [[]] = some tau := by
  rw [pruneLoop_cons, hedges]
  cases fuel <;> rfl

theorem bct_dmax0 (s : List σ) (beta : ℝ) (sample initial_ctxt : List σ) :
    ∃ (cnt : List σ → Option ℕ) (r : ℝ),
      construct_tau_max s 0 sample initial_ctxt = some (Tree.init s, cnt) ∧
      cnt [] = some sample.length ∧
      calc_log_pe s cnt [] = some r ∧
      (Tree.init s).nodes = [[]] ∧ (Tree.init s).edges = [] ∧
      bct s 0 beta sample initial_ctxt =
        some (Tree.init s, Real.exp r) := by
  obtain ⟨cnt, hres⟩ := construct_tau_max_zero s sample initial_ctxt
  obtain ⟨-, -, -, hnil, hcw, -⟩ :=
    construct_tau_max_spec s 0 sample initial_ctxt (Nat.zero_le _) hres
  have hcb : ∀ b ∈ s, cnt ([] ++ [b]) ≠ none := by
    intro b hb
    rw [List.nil_append]
    refine ((hcw [b] (by simp)).2).mpr (Or.inr ⟨[], ?_, b, hb, rfl⟩)
    exact List.mem_singleton.mpr rfl
  obtain ⟨r, hr⟩ := calc_log_pe_isSome s cnt [] hcb
  refine ⟨cnt, r, hres, hnil, hr, rfl, rfl, ?_⟩
  have hmap : optMapM (fun u => calc_log_pe s cnt u)
      (Tree.init s).nodes = some [r] := by
    simp only [Tree.init, optMapM, hr]
  have hpe0 : peDict s (Tree.init s) cnt [] = some r := by
    show (if ([] : List σ) ∈ ([[]] : List (List σ)) then
      calc_log_pe s cnt [] else none) = some r
    rw [if_pos (List.mem_singleton.mpr rfl), hr]
  have hpm := construct_log_pm_dict_zero s beta (Tree.init s)
    (peDict s (Tree.init s) cnt) rfl r hpe0
  have hloop : pruneLoop beta (peDict s (Tree.init s) cnt)
      (Function.update (fun _ => none) [] (some r))
      ((Tree.init s).nodes.length + 1) (Tree.init s) [[]] =
      some (Tree.init s) :=
    pruneLoop_leaf_root beta _ _ _ (Tree.init s) rfl
  have hroot : (Function.update (fun _ => (none : Option ℝ)) []
      (some r)) ([] : List σ) = some r := Function.update_same _ _ _
  unfold bct
  rw [hres]
  dsimp only
  rw [hmap]
  dsimp only
  rw [hpm]
  dsimp only
  rw [hloop]
  dsimp only
  rw [hroot]

/-- C9: for `dmax = 0` and any sample and initial context, `bct` returns
the one-node root tree with an empty edge dictionary, the pruning pass
makes no decision (the root is already a leaf), and the returned probability
is `exp(log_pe(""))` computed from the root's seeded count
`counter[""] = len(sample)`. -/
theorem claim_C9 (s : List σ) (beta : ℝ) (sample initial_ctxt : List σ) :
    ∃ (cnt : List σ → Option ℕ) (r : ℝ),
      construct_tau_max s 0 sample initial_ctxt = some (Tree.init s, cnt) ∧
      cnt [] = some sample.length ∧
      calc_log_pe s cnt [] = some r ∧
      (Tree.init s).nodes = [[]] ∧ (Tree.init s).edges = [] ∧
      bct s 0 beta sample initial_ctxt =
        some (Tree.init s, Real.exp r) :=
  bct_dmax0 s beta sample initial_ctxt

/-- The input precondition stated by the specification: `beta` strictly
between `0` and `1`, an initial context at least `dmax` long, and every
sample symbol inside the declared alphabet.  (A negative `dmax` is not
representable here since depths are naturals.)  This definition follows the
specification's wording, to be compared with the code's actual behaviour. -/
def ValidInput (s : List σ) (dmax : ℕ) (beta : ℝ)
    (sample initial_ctxt : List σ) : Prop :=
  0 < beta ∧ beta < 1 ∧ dmax ≤ initial_ctxt.length ∧ ∀ c ∈ sample, c ∈ s

/-- C7 (refuted): `bct` performs no input validation.  With the alphabet
`{0,1}`, the out-of-alphabet sample `[2]` and `dmax = 0` it silently
succeeds instead of rejecting the input; and with `dmax = 2`, sample
`[2,1,1]` and initial context `[0,0]` the run fails in the middle of the
counting scan (the `add_node` assert), not in any precondition check. -/
theorem claim_C7 :
    (¬ ValidInput [0, 1] 0 ((1 : ℝ)/2) [2] [] ∧
      (bct [0, 1] 0 ((1 : ℝ)/2) [2] []).isSome = true) ∧
    (construct_tau_max [0, 1] 2 [2, 1, 1] [0, 0] =
        (none : Option (Tree ℕ × (List ℕ → Option ℕ))) ∧
      bct [0, 1] 2 ((1 : ℝ)/2) [2, 1, 1] [0, 0] = none) := by
  refine ⟨⟨?_, ?_⟩, ?_, ?_⟩
  · rintro ⟨-, -, -, hsym⟩
    exact absurd (hsym 2 (List.mem_singleton.mpr rfl)) (by decide)
  · obtain ⟨cnt, r, -, -, -, -, -, hbct⟩ :=
      bct_dmax0 [0, 1] ((1 : ℝ)/2) [2] []
    rw [hbct]
    rfl
  · rfl
  · unfold bct
    rw [show construct_tau_max [0, 1] 2 [2, 1, 1] [0, 0] =
      (none : Option (Tree ℕ × (List ℕ → Option ℕ))) from rfl]

theorem strongInv_transport (tree tree' : Tree σ) (hs : tree'.s = tree.s)
    (hedges : tree'.edges = tree.edges)
    (hnodes : ∀ u, u ∈ tree'.nodes ↔ u ∈ tree.nodes)
    (hinv : StrongInv tree) : StrongInv tree' := by
  obtain ⟨h1, h2, h3⟩ := hinv
  refine ⟨(hnodes []).mpr h1, ?_, ?_⟩
  · intro e he
    rw [hedges] at he
    obtain ⟨he1, he2, he3⟩ := h2 e he
    exact ⟨by rw [hs]; exact he1, (hnodes _).mpr he2,
      fun c hc => (hnodes c).mpr (he3 c hc)⟩
  · intro v hv hvne
    obtain ⟨hb, hl⟩ := h3 v ((hnodes v).mp hv) hvne
    rw [hs, hedges]
    exact ⟨hb, hl⟩

theorem pmPass_off (dmax : ℕ) (beta : ℝ) (tree : Tree σ)
    (pe : List σ → Option ℝ) (hinv : StrongInv tree) :
    ∀ (l : List (List σ)) (pm0 pm1 : List σ → Option ℝ),
    (∀ x ∈ l, x ∈ tree.nodes) →
    optFold (pmStep dmax beta tree pe) pm0 l = some pm1 →
    ∀ w, w ∉ tree.nodes → pm1 w = pm0 w := by
  intro l
  induction l with
  | nil =>
    intro pm0 pm1 _ h w _
    exact congrFun (Option.some_inj.mp h).symm w
  | cons x xs ih =>
    intro pm0 pm1 hl h w hw
    rw [optFold_cons] at h
    cases hstep : pmStep dmax beta tree pe pm0 x with
    | none =>
      rw [hstep] at h
      exact Option.noConfusion h
    | some pm0' =>
      rw [hstep] at h
      obtain ⟨⟨v, hv⟩, -⟩ := pmStep_spec dmax beta tree pe pm0 pm0' hinv x hstep
      have hx : x ∈ tree.nodes := hl x (List.mem_cons_self x xs)
      have hne : w ≠ x := fun hwx => hw (hwx ▸ hx)
      rw [ih pm0' pm1 (fun y hy => hl y (List.mem_cons_of_mem x hy)) h w hw,
        hv, Function.update_noteq hne]

theorem pmLevels_off (dmax : ℕ) (beta : ℝ) (tree : Tree σ)
    (pe : List σ → Option ℝ) (hinv : StrongInv tree) :
    ∀ (ks : List ℕ) (pm0 pm1 : List σ → Option ℝ),
    optFold (fun pm size => optFold (pmStep dmax beta tree pe) pm
        (tree.nodes.filter (fun node => decide (node.length = size)))) pm0 ks =
      some pm1 →
    ∀ w, w ∉ tree.nodes → pm1 w = pm0 w := by
  intro ks
  induction ks with
  | nil =>
    intro pm0 pm1 h w _
    exact congrFun (Option.some_inj.mp h).symm w
  | cons k ks ih =>
    intro pm0 pm1 h w hw
    rw [optFold_cons] at h
    cases hpass : optFold (pmStep dmax beta tree pe) pm0
        (tree.nodes.filter (fun node => decide (node.length = k))) with
    | none =>
      rw [hpass] at h
      exact Option.noConfusion h
    | some pmk =>
      rw [hpass] at h
      rw [ih pmk pm1 h w hw]
      exact pmPass_off dmax beta tree pe hinv _ pm0 pmk
        (fun y hy => (List.mem_filter.mp hy).1) hpass w hw

theorem construct_log_pm_dict_off (s : List σ) (dmax : ℕ) (beta : ℝ)
    (tree : Tree σ) (pe pm : List σ → Option ℝ) (hinv : StrongInv tree)
    (h : construct_log_pm_dict s dmax beta tree pe = some pm) :
    ∀ w, w ∉ tree.nodes → pm w = none := by
  unfold construct_log_pm_dict at h
  intro w hw
  exact pmLevels_off dmax beta tree pe hinv ((List.range (dmax + 1)).reverse)
    (fun _ => none) pm h w hw

theorem pmSpec_agree (dmax : ℕ) (beta : ℝ) (tree : Tree σ)
    (pe pm pm' : List σ → Option ℝ) (hinv : StrongInv tree)
    (hlen : ∀ u ∈ tree.nodes, u.length ≤ dmax)
    (hspec : ∀ u ∈ tree.nodes, PmSpec dmax beta tree pe pm u)
    (hspec' : ∀ u ∈ tree.nodes, PmSpec dmax beta tree pe pm' u) :
    ∀ n, ∀ u ∈ tree.nodes, dmax - u.length ≤ n → pm u = pm' u := by
  intro n
  induction n with
  | zero =>
    intro u hu hn
    have hd : u.length = dmax := by
      have := hlen u hu
      omega
    obtain ⟨h1, -, -⟩ := hspec u hu
    obtain ⟨h1', -, -⟩ := hspec' u hu
    rw [(h1 hd).1, (h1' hd).1]
  | succ n ihn =>
    intro u hu hn
    by_cases hd : u.length = dmax
    · obtain ⟨h1, -, -⟩ := hspec u hu
      obtain ⟨h1', -, -⟩ := hspec' u hu
      rw [(h1 hd).1, (h1' hd).1]
    · cases hlk : dlookup tree.edges u with
      | none =>
        obtain ⟨-, h2, -⟩ := hspec u hu
        obtain ⟨-, h2', -⟩ := hspec' u hu
        rw [h2 hd hlk, h2' hd hlk]
      | some ch =>
        obtain ⟨-, -, h3⟩ := hspec u hu
        obtain ⟨-, -, h3'⟩ := hspec' u hu
        obtain ⟨vs, p, hvs, hp, hpm⟩ := h3 hd ch hlk
        obtain ⟨vs', p', hvs', hp', hpm'⟩ := h3' hd ch hlk
        have hmemE : (u, ch) ∈ tree.edges := dlookup_mem hlk
        have hcanon : ch = tree.s.map (· :: u) := (hinv.2.1 (u, ch) hmemE).1
        have hchn : ∀ c ∈ ch, c ∈ tree.nodes := (hinv.2.1 (u, ch) hmemE).2.2
        have hagree : ∀ c ∈ ch, pm c = pm' c := by
          intro c hc
          apply ihn c (hchn c hc)
          have hcl : c.length = u.length + 1 := by
            rw [hcanon] at hc
            obtain ⟨b, -, rfl⟩ := List.mem_map.mp hc
            rfl
          have hule := hlen u hu
          omega
        have heq : optMapM pm ch = optMapM pm' ch :=
          optMapM_congr pm pm' ch hagree
        rw [hvs, hvs'] at heq
        have hvv : vs = vs' := Option.some_inj.mp heq
        have hpp : p = p' := Option.some_inj.mp (hp.symm.trans hp')
        rw [hpm, hpm', hvv, hpp]

theorem zeroFillOver_perm (s : List σ) (l l' : List (List σ))
    (hperm : l.Perm l') (cnt : List σ → Option ℕ) (w : List σ) :
    zeroFillOver s l cnt w = zeroFillOver s l' cnt w := by
  rw [zeroFillOver_spec, zeroFillOver_spec]
  refine if_congr (and_congr_left' ?_) rfl rfl
  constructor
  · rintro ⟨u, hu, hb⟩
    exact ⟨u, hperm.mem_iff.mp hu, hb⟩
  · rintro ⟨u, hu, hb⟩
    exact ⟨u, hperm.mem_iff.mpr hu, hb⟩

theorem optMapM_cons {α β : Type} (g : α → Option β) (a : α) (t : List α) :
    optMapM g (a :: t) =
      match g a with
      | none => none
      | some b =>
        match optMapM g t with
        | none => none
        | some bs => some (b :: bs) := rfl

theorem optMapM_eq_none_iff {α β : Type} (g : α → Option β) :
    ∀ l : List α, (optMapM g l = none ↔ ∃ a ∈ l, g a = none) := by
  intro l
  induction l with
  | nil =>
    constructor
    · intro h
      exact Option.noConfusion h
    · rintro ⟨a, ha, -⟩
      exact absurd ha (List.not_mem_nil a)
  | cons a t ih =>
    constructor
    · intro h
      cases hga : g a with
      | none => exact ⟨a, List.mem_cons_self a t, hga⟩
      | some b =>
        cases hmt : optMapM g t with
        | none =>
          obtain ⟨x, hx, hgx⟩ := ih.mp hmt
          exact ⟨x, List.mem_cons_of_mem a hx, hgx⟩
        | some bs =>
          rw [optMapM_cons, hga, hmt] at h
          exact Option.noConfusion h
    · rintro ⟨x, hx, hgx⟩
      rw [optMapM_cons]
      rcases List.mem_cons.mp hx with rfl | hxt
      · rw [hgx]
      · cases hga : g a with
        | none => rfl
        | some b =>
          rw [ih.mpr ⟨x, hxt, hgx⟩]

/-- The value one `pmStep` writes for `node` (read off the current
dictionary), `none` when the step would fail. -/
noncomputable def pmValF (dmax : ℕ) (beta : ℝ) (tree : Tree σ)
    (log_pe_dict log_pm_dict : List σ → Option ℝ) (node : List σ) :
    Option ℝ :=
  if node.length = dmax then log_pe_dict node
  else
    match dlookup tree.edges node with
    | none => some (Real.log beta)
    | some children =>
      match optMapM log_pm_dict children, log_pe_dict node with
      | some vs, some p =>
        some (max (Real.log beta + p) (Real.log (1 - beta) + vs.sum))
      | _, _ => none

theorem pmStep_eq_valF (dmax : ℕ) (beta : ℝ) (tree : Tree σ)
    (pe pm : List σ → Option ℝ) (x : List σ) :
    pmStep dmax beta tree pe pm x =
      match pmValF dmax beta tree pe pm x with
      | none => none
      | some v => some (Function.update pm x (some v)) := by
  unfold pmStep pmValF
  by_cases hxd : x.length = dmax
  · rw [if_pos hxd, if_pos hxd]
  · rw [if_neg hxd, if_neg hxd]
    cases hlk : dlookup tree.edges x with
    | none => rfl
    | some ch =>
      dsimp only
      cases hmm : optMapM pm ch <;> cases hpe : pe x <;> rfl

theorem pmValF_congr (dmax : ℕ) (beta : ℝ) (tree : Tree σ)
    (pe pm₁ pm₂ : List σ → Option ℝ) (hinv : StrongInv tree) (x : List σ)
    (h : ∀ w, w.length = x.length + 1 → pm₁ w = pm₂ w) :
    pmValF dmax beta tree pe pm₁ x = pmValF dmax beta tree pe pm₂ x := by
  unfold pmValF
  by_cases hxd : x.length = dmax
  · rw [if_pos hxd, if_pos hxd]
  · rw [if_neg hxd, if_neg hxd]
    cases hlk : dlookup tree.edges x with
    | none => rfl
    | some ch =>
      dsimp only
      have hcanon : ch = tree.s.map (· :: x) :=
        (hinv.2.1 (x, ch) (dlookup_mem hlk)).1
      have hmm : optMapM pm₁ ch = optMapM pm₂ ch := by
        apply optMapM_congr
        intro c hc
        rw [hcanon] at hc
        obtain ⟨b, -, rfl⟩ := List.mem_map.mp hc
        exact h (b :: x) rfl
      rw [hmm]

theorem pmPass_none (dmax : ℕ) (beta : ℝ) (tree : Tree σ)
    (pe : List σ → Option ℝ) (hinv : StrongInv tree) (k : ℕ) :
    ∀ (l : List (List σ)) (pm0 : List σ → Option ℝ),
    (∀ x ∈ l, x.length = k) →
    (∃ x ∈ l, pmValF dmax beta tree pe pm0 x = none) →
    optFold (pmStep dmax beta tree pe) pm0 l = none := by
  intro l
  induction l with
  | nil =>
    rintro pm0 _ ⟨x, hx, -⟩
    exact absurd hx (List.not_mem_nil x)
  | cons a t ih =>
    rintro pm0 hl ⟨x, hx, hval⟩
    rw [optFold_cons, pmStep_eq_valF]
    cases hva : pmValF dmax beta tree pe pm0 a with
    | none => rfl
    | some v =>
      dsimp only
      rcases List.mem_cons.mp hx with rfl | hxt
      · rw [hva] at hval
        exact Option.noConfusion hval
      · apply ih (Function.update pm0 a (some v))
          (fun y hy => hl y (List.mem_cons_of_mem a hy))
        refine ⟨x, hxt, ?_⟩
        rw [← hval]
        apply pmValF_congr dmax beta tree pe _ _ hinv x
        intro w hw
        apply Function.update_noteq
        intro hwa
        have ha := hl a (List.mem_cons_self a t)
        have hxl := hl x hx
        rw [hwa] at hw
        omega

theorem pmPass_some (dmax : ℕ) (beta : ℝ) (tree : Tree σ)
    (pe : List σ → Option ℝ) (hinv : StrongInv tree) (k : ℕ) :
    ∀ (l : List (List σ)) (pm0 : List σ → Option ℝ),
    (∀ x ∈ l, x.length = k) →
    (∀ x ∈ l, pmValF dmax beta tree pe pm0 x ≠ none) →
    optFold (pmStep dmax beta tree pe) pm0 l =
      some (fun w => if w ∈ l then pmValF dmax beta tree pe pm0 w
        else pm0 w) := by
  intro l
  induction l with
  | nil =>
    intro pm0 _ _
    have he : (fun w => if w ∈ ([] : List (List σ)) then
        pmValF dmax beta tree pe pm0 w else pm0 w) = pm0 := by
      funext w
      rw [if_neg (List.not_mem_nil w)]
    rw [he]
    rfl
  | cons a t ih =>
    intro pm0 hl hv
    rw [optFold_cons, pmStep_eq_valF]
    cases hva : pmValF dmax beta tree pe pm0 a with
    | none => exact absurd hva (hv a (List.mem_cons_self a t))
    | some v =>
      dsimp only
      have hcongr : ∀ x ∈ t, pmValF dmax beta tree pe
          (Function.update pm0 a (some v)) x =
          pmValF dmax beta tree pe pm0 x := by
        intro x hx
        apply pmValF_congr dmax beta tree pe _ _ hinv x
        intro w hw
        apply Function.update_noteq
        intro hwa
        have ha := hl a (List.mem_cons_self a t)
        have hxl := hl x (List.mem_cons_of_mem a hx)
        rw [hwa] at hw
        omega
      rw [ih (Function.update pm0 a (some v))
        (fun y hy => hl y (List.mem_cons_of_mem a hy))
        (fun y hy => by
          rw [hcongr y hy]
          exact hv y (List.mem_cons_of_mem a hy))]
      congr 1
      funext w
      by_cases hwt : w ∈ t
      · rw [if_pos hwt, if_pos (List.mem_cons_of_mem a hwt), hcongr w hwt]
      · by_cases hwa : w = a
        · subst hwa
          rw [if_neg hwt, if_pos (List.mem_cons_self w t),
            Function.update_same, hva]
        · rw [if_neg hwt,
            if_neg (fun hc => (List.mem_cons.mp hc).elim hwa hwt),
            Function.update_noteq hwa]

theorem pmPass_perm (dmax : ℕ) (beta : ℝ) (tree : Tree σ)
    (pe : List σ → Option ℝ) (hinv : StrongInv tree) (k : ℕ)
    (l₁ l₂ : List (List σ)) (hperm : l₁.Perm l₂)
    (hl : ∀ x ∈ l₁, x.length = k) (pm0 : List σ → Option ℝ) :
    optFold (pmStep dmax beta tree pe) pm0 l₁ =
      optFold (pmStep dmax beta tree pe) pm0 l₂ := by
  have hl₂ : ∀ x ∈ l₂, x.length = k := fun x hx => hl x (hperm.mem_iff.mpr hx)
  by_cases hex : ∃ x ∈ l₁, pmValF dmax beta tree pe pm0 x = none
  · obtain ⟨x, hx, hv⟩ := hex
    rw [pmPass_none dmax beta tree pe hinv k l₁ pm0 hl ⟨x, hx, hv⟩,
      pmPass_none dmax beta tree pe hinv k l₂ pm0 hl₂
        ⟨x, hperm.mem_iff.mp hx, hv⟩]
  · push_neg at hex
    rw [pmPass_some dmax beta tree pe hinv k l₁ pm0 hl hex,
      pmPass_some dmax beta tree pe hinv k l₂ pm0 hl₂
        (fun x hx => hex x (hperm.mem_iff.mpr hx))]
    congr 1
    funext w
    by_cases hw : w ∈ l₁
    · rw [if_pos hw, if_pos (hperm.mem_iff.mp hw)]
    · rw [if_neg hw, if_neg (fun hc => hw (hperm.mem_iff.mpr hc))]

theorem pmLevels_perm (dmax : ℕ) (beta : ℝ) (tree : Tree σ)
    (pe : List σ → Option ℝ) (hinv : StrongInv tree)
    (N₁ N₂ : List (List σ)) (hperm : N₁.Perm N₂) :
    ∀ (ks : List ℕ) (pm0 : List σ → Option ℝ),
    optFold (fun pm size => optFold (pmStep dmax beta tree pe) pm
        (N₁.filter (fun node => decide (node.length = size)))) pm0 ks =
    optFold (fun pm size => optFold (pmStep dmax beta tree pe) pm
        (N₂.filter (fun node => decide (node.length = size)))) pm0 ks := by
  intro ks
  induction ks with
  | nil => intro pm0; rfl
  | cons k ks ih =>
    intro pm0
    rw [optFold_cons, optFold_cons]
    have hpf : optFold (pmStep dmax beta tree pe) pm0
        (N₁.filter (fun node => decide (node.length = k))) =
      optFold (pmStep dmax beta tree pe) pm0
        (N₂.filter (fun node => decide (node.length = k))) :=
      pmPass_perm dmax beta tree pe hinv k _ _ (hperm.filter _)
        (fun x hx => of_decide_eq_true (List.mem_filter.mp hx).2) pm0
    rw [hpf]
    cases hres : optFold (pmStep dmax beta tree pe) pm0
        (N₂.filter (fun node => decide (node.length = k))) with
    | none => rfl
    | some pmk =>
      dsimp only
      exact ih pmk

/-- `construct_tau_max` with the enumeration order of the node set in the
zero-fill pass made an explicit parameter `e` (one run's iteration order of
the Python `tree.nodes` set). -/
def construct_tau_maxRun (s : List σ) (dmax : ℕ)
    (sample initial_ctxt : List σ)
    (e : List (List σ) → List (List σ)) :
    Option (Tree σ × (List σ → Option ℕ)) :=
  match optFold (fun st i => optFold (scanStep dmax (initial_ctxt ++ sample) i)
      st (List.range (dmax + 1)))
    (Tree.init s, Function.update (fun _ => none) [] (some sample.length))
    (List.range' initial_ctxt.length sample.length) with
  | none => none
  | some (t, cnt) => some (t, zeroFillOver s (e t.nodes) cnt)

/-- `construct_log_pm_dict` with the node-set enumeration `N` a parameter. -/
noncomputable def construct_log_pm_dictRun (s : List σ) (dmax : ℕ) (beta : ℝ)
    (tree : Tree σ) (log_pe_dict : List σ → Option ℝ)
    (N : List (List σ)) : Option (List σ → Option ℝ) :=
  optFold (fun log_pm_dict size =>
      optFold (pmStep dmax beta tree log_pe_dict) log_pm_dict
        (N.filter (fun node => decide (node.length = size))))
    (fun _ => none) ((List.range (dmax + 1)).reverse)

/-- One run of `bct`, with the three set-iteration orders Python leaves
unspecified (zero-fill pass, `log_pe` comprehension, pm-level enumeration)
made explicit parameters. -/
noncomputable def bctRun (s : List σ) (dmax : ℕ) (beta : ℝ)
    (sample initial_ctxt : List σ)
    (e₁ e₂ e₃ : List (List σ) → List (List σ)) : Option (Tree σ × ℝ) :=
  match construct_tau_maxRun s dmax sample initial_ctxt e₁ with
  | none => none
  | some (tau, counter) =>
    match optMapM (fun u => calc_log_pe s counter u) (e₂ tau.nodes) with
    | none => none
    | some _ =>
      match construct_log_pm_dictRun s dmax beta tau (peDict s tau counter)
          (e₃ tau.nodes) with
      | none => none
      | some log_pm_dict =>
        match pruneLoop beta (peDict s tau counter) log_pm_dict
            (tau.nodes.length + 1) tau [[]] with
        | none => none
        | some tau' =>
          match log_pm_dict [] with
          | none => none
          | some v => some (tau', Real.exp v)

theorem construct_tau_maxRun_eq (s : List σ) (dmax : ℕ)
    (sample initial_ctxt : List σ) (e : List (List σ) → List (List σ))
    (he : ∀ l, (e l).Perm l) :
    construct_tau_maxRun s dmax sample initial_ctxt e =
      construct_tau_max s dmax sample initial_ctxt := by
  rw [construct_tau_max_eq]
  unfold construct_tau_maxRun
  cases hscan : optFold (fun st i => optFold
      (scanStep dmax (initial_ctxt ++ sample) i) st (List.range (dmax + 1)))
    (Tree.init s, Function.update (fun _ => none) [] (some sample.length))
    (List.range' initial_ctxt.length sample.length) with
  | none => rfl
  | some st =>
    obtain ⟨t, cnt⟩ := st
    dsimp only
    rw [show zeroFillOver s (e t.nodes) cnt = zeroFillOver s t.nodes cnt from
      funext (fun w => zeroFillOver_perm s (e t.nodes) t.nodes
        (he t.nodes) cnt w)]

theorem construct_log_pm_dictRun_perm (s : List σ) (dmax : ℕ) (beta : ℝ)
    (tree : Tree σ) (pe : List σ → Option ℝ) (hinv : StrongInv tree)
    (N : List (List σ)) (hperm : N.Perm tree.nodes) :
    construct_log_pm_dictRun s dmax beta tree pe N =
      construct_log_pm_dict s dmax beta tree pe := by
  unfold construct_log_pm_dictRun construct_log_pm_dict
  exact pmLevels_perm dmax beta tree pe hinv N tree.nodes hperm
    ((List.range (dmax + 1)).reverse) (fun _ => none)

theorem bctRun_eq (s : List σ) (dmax : ℕ) (beta : ℝ)
    (sample initial_ctxt : List σ) (hd : dmax ≤ initial_ctxt.length)
    (e₁ e₂ e₃ : List (List σ) → List (List σ))
    (he₁ : ∀ l, (e₁ l).Perm l) (he₂ : ∀ l, (e₂ l).Perm l)
    (he₃ : ∀ l, (e₃ l).Perm l) :
    bctRun s dmax beta sample initial_ctxt e₁ e₂ e₃ =
      bct s dmax beta sample initial_ctxt := by
  unfold bctRun bct
  rw [construct_tau_maxRun_eq s dmax sample initial_ctxt e₁ he₁]
  cases hres : construct_tau_max s dmax sample initial_ctxt with
  | none => rfl
  | some p =>
    obtain ⟨tau, counter⟩ := p
    dsimp only
    obtain ⟨-, hinv, -, -, -, -⟩ :=
      construct_tau_max_spec s dmax sample initial_ctxt hd hres
    cases hm2 : optMapM (fun u => calc_log_pe s counter u) (e₂ tau.nodes) with
    | none =>
      have hm2' : optMapM (fun u => calc_log_pe s counter u) tau.nodes =
          none := by
        rw [optMapM_eq_none_iff]
        obtain ⟨x, hx, hgx⟩ := (optMapM_eq_none_iff _ _).mp hm2
        exact ⟨x, (he₂ tau.nodes).mem_iff.mp hx, hgx⟩
      rw [hm2']
    | some bs =>
      have hnn : optMapM (fun u => calc_log_pe s counter u) tau.nodes ≠
          none := by
        intro hc
        obtain ⟨x, hx, hgx⟩ := (optMapM_eq_none_iff _ _).mp hc
        have hcon : optMapM (fun u => calc_log_pe s counter u)
            (e₂ tau.nodes) = none :=
          (optMapM_eq_none_iff _ _).mpr
            ⟨x, (he₂ tau.nodes).mem_iff.mpr hx, hgx⟩
        rw [hm2] at hcon
        exact Option.noConfusion hcon
      cases hm2' : optMapM (fun u => calc_log_pe s counter u) tau.nodes with
      | none => exact absurd hm2' hnn
      | some bs' =>
        dsimp only
        rw [construct_log_pm_dictRun_perm s dmax beta tau
          (peDict s tau counter) hinv (e₃ tau.nodes) (he₃ tau.nodes)]

/-- C8: `bct` is deterministic.  The only run-to-run variation in the
Python source is the iteration order of the `nodes` set (used in the
zero-fill completion, the `log_pe` dictionary comprehension, and the
per-level node enumeration of the pm recursion); `bctRun` makes those
orders explicit parameters.  Any two runs over valid enumerations return
the same result as the canonical `bct` — in particular the same MAP tree
(identical `nodes` and `edges`) and the same `pm_root` — and the maximal
tree and counts of `construct_tau_maxRun` are determined by the alphabet,
`dmax` and the input sequences alone. -/
theorem claim_C8 (s : List σ) (dmax : ℕ) (beta : ℝ)
    (sample initial_ctxt : List σ) (hd : dmax ≤ initial_ctxt.length)
    (e₁ e₂ e₃ f₁ f₂ f₃ : List (List σ) → List (List σ))
    (he₁ : ∀ l, (e₁ l).Perm l) (he₂ : ∀ l, (e₂ l).Perm l)
    (he₃ : ∀ l, (e₃ l).Perm l) (hf₁ : ∀ l, (f₁ l).Perm l)
    (hf₂ : ∀ l, (f₂ l).Perm l) (hf₃ : ∀ l, (f₃ l).Perm l) :
    construct_tau_maxRun s dmax sample initial_ctxt e₁ =
      construct_tau_maxRun s dmax sample initial_ctxt f₁ ∧
    bctRun s dmax beta sample initial_ctxt e₁ e₂ e₃ =
      bctRun s dmax beta sample initial_ctxt f₁ f₂ f₃ ∧
    bctRun s dmax beta sample initial_ctxt e₁ e₂ e₃ =
      bct s dmax beta sample initial_ctxt := by
  refine ⟨?_, ?_, ?_⟩
  · rw [construct_tau_maxRun_eq s dmax sample initial_ctxt e₁ he₁,
      construct_tau_maxRun_eq s dmax sample initial_ctxt f₁ hf₁]
  · rw [bctRun_eq s dmax beta sample initial_ctxt hd e₁ e₂ e₃ he₁ he₂ he₃,
      bctRun_eq s dmax beta sample initial_ctxt hd f₁ f₂ f₃ hf₁ hf₂ hf₃]
  · exact bctRun_eq s dmax beta sample initial_ctxt hd e₁ e₂ e₃ he₁ he₂ he₃

theorem claim_C8_witness :
    construct_tau_maxRun [0, 1] 1 [1, 0] [0] (fun l => l.reverse) =
      construct_tau_maxRun [0, 1] 1 [1, 0] [0] (fun l => l) ∧
    bctRun [0, 1] 1 ((1 : ℝ)/2) [1, 0] [0] (fun l => l.reverse)
        (fun l => l.reverse) (fun l => l.reverse) =
      bctRun [0, 1] 1 ((1 : ℝ)/2) [1, 0] [0] (fun l => l) (fun l => l)
        (fun l => l) ∧
    bctRun [0, 1] 1 ((1 : ℝ)/2) [1, 0] [0] (fun l => l.reverse)
        (fun l => l.reverse) (fun l => l.reverse) =
      bct [0, 1] 1 ((1 : ℝ)/2) [1, 0] [0] :=
  claim_C8 [0, 1] 1 ((1 : ℝ)/2) [1, 0] [0] (by decide)
    (fun l => l.reverse) (fun l => l.reverse) (fun l => l.reverse)
    (fun l => l) (fun l => l) (fun l => l)
    (fun l => l.reverse_perm) (fun l => l.reverse_perm)
    (fun l => l.reverse_perm) (fun l => List.Perm.refl l)
    (fun l => List.Perm.refl l) (fun l => List.Perm.refl l)

end BCT
